import Mathlib

/-!
Verification of the `vela-s3-cache` archive codec (`pkg/archiver`).

The Go code is embedded shallowly, specialized to Unix path semantics
(`filepath.Separator = '/'`), which is the platform the plugin runs on
(scratch-based Linux container).  Paths are modelled as Lean `String`s and
the relevant pieces of Go's `path/filepath` standard library
(`Clean`, `Join`, `Dir`, `IsAbs`) are reimplemented faithfully for that
platform.  The file system is modelled lexically as an association list
from cleaned absolute path strings to nodes; symlink indirection during
later path resolution and parent-directory mtime updates are not modelled.
-/

namespace Vela

/-- Split a character list on the slash separator, keeping empty segments,
mirroring how Go's `filepath.Clean` scans separator-delimited components. -/
def splitOnSlash : List Char → List (List Char)
  | [] => [[]]
  | c :: rest =>
    if c = '/' then [] :: splitOnSlash rest
    else
      match splitOnSlash rest with
      | [] => [[c]]
      | s :: tail => (c :: s) :: tail

/-- The component list `Clean` actually processes: empty and `.` components
are discarded up front. -/
def cleanSegsOf (cs : List Char) : List (List Char) :=
  (splitOnSlash cs).filter (fun s => (s != []) && (s != ['.']))

/-- One step of Go `filepath.Clean`'s output construction: a `..` component
pops the last ordinary component, is dropped at the root of a rooted path,
and accumulates at the front of a relative path.  `acc` is the output stack
in reverse order. -/
def cleanStep (rooted : Bool) (acc : List (List Char)) (s : List Char) : List (List Char) :=
  if s = ['.', '.'] then
    match acc with
    | [] => if rooted then [] else [s]
    | a :: rest => if a = ['.', '.'] then s :: acc else rest
  else s :: acc

/-- Join components with single slashes (no leading or trailing slash). -/
def joinSegs : List (List Char) → List Char
  | [] => []
  | [s] => s
  | s :: rest => s ++ '/' :: joinSegs rest

/-- Go `filepath.Clean` on Unix, on the character-list representation. -/
def cleanData (cs : List Char) : List Char :=
  if cs = [] then ['.']
  else
    let rooted := cs.head? == some '/'
    let stack := ((cleanSegsOf cs).foldl (cleanStep rooted) []).reverse
    if rooted then '/' :: joinSegs stack
    else if stack = [] then ['.'] else joinSegs stack

/-- Go `filepath.Clean` on Unix. -/
def clean (p : String) : String := ⟨cleanData p.data⟩

/-- `isPathWithinBoundary` from `pkg/archiver/common.go`: clean both paths,
then test `strings.HasPrefix(path, dir + "/") || path == dir`. -/
def isPathWithinBoundary (path dir : String) : Bool :=
  let p := cleanData path.data
  let d := cleanData dir.data
  (d ++ ['/']).isPrefixOf p || p == d

/-- Go `filepath.Join` restricted to two elements (all call sites in the
archiver join exactly two): empty elements are skipped, the rest are joined
with a slash and cleaned. -/
def joinPath (a b : String) : String :=
  if a.data.isEmpty && b.data.isEmpty then ""
  else if a.data.isEmpty then clean b
  else if b.data.isEmpty then clean a
  else ⟨cleanData (a.data ++ '/' :: b.data)⟩

/-- Go `filepath.Dir` on Unix: keep everything up to the final slash
(empty if there is none) and clean it. -/
def dirData (cs : List Char) : List Char :=
  cleanData ((cs.reverse.dropWhile (fun c => c != '/')).reverse)

/-- Go `filepath.Dir` on Unix. -/
def goDir (p : String) : String := ⟨dirData p.data⟩

/-- Go `filepath.IsAbs` on Unix: `strings.HasPrefix(path, "/")`. -/
def isAbs (p : String) : Bool := p.data.head? == some '/'

/-- Error taxonomy of the archiver, one constructor per distinct
`fmt.Errorf` site in the Go code (the spec's names from section 7). -/
inductive XErr where
  | absolutePath
  | traversalAttempt
  | absoluteSymlink
  | symlinkEscape
  | circularSymlink
  | chainTooDeep
  | hardLinkEscape
  | fileConflict
  | unsupportedEntryKind
  | notDir
  | ioError
  | pathResolution
  | unsupportedFormat
  deriving DecidableEq, Repr

/-- Tar entry type flags as dispatched by `processItem` in `targzip.go`. -/
inductive TFlag where
  | dir
  | reg
  | chr
  | blk
  | fifo
  | gnuSparse
  | symlink
  | link
  | other
  deriving DecidableEq, Repr

/-- The header fields of a tar entry that the archiver reads or writes. -/
structure THeader where
  name : String
  typeflag : TFlag
  linkname : String
  size : Nat
  mode : Nat
  modTime : Int
  deriving DecidableEq, Repr

/-- One entry of the (already de-gzipped, de-framed) tar stream: its header
plus its content bytes.  `archive/tar`'s reader never yields more than
`size` bytes of content for an entry. -/
structure TEntry where
  header : THeader
  content : List Nat
  deriving DecidableEq, Repr

/-- The windows drive-letter test in `getTargetPath`:
`len > 1 && name[1] == ':' && name[0] is an ASCII letter`. -/
def driveLetter (s : String) : Bool :=
  match s.data with
  | c0 :: c1 :: _ =>
    c1 == ':' && ((decide ('A' ≤ c0) && decide (c0 ≤ 'Z')) ||
      (decide ('a' ≤ c0) && decide (c0 ≤ 'z')))
  | _ => false

/-- `getTargetPath` from `targzip.go`: clean the stored name, reject
absolute names (separator-prefixed, including foreign-platform backslash,
or drive-letter shaped), join onto the destination and reject the result
unless the boundary guard accepts it. -/
def getTargetPath (name destAbs : String) : Except XErr String :=
  let cleanedName := clean name
  if cleanedName.data.head? == some '/' || cleanedName.data.head? == some '\\' then
    .error .absolutePath
  else if driveLetter cleanedName then
    .error .absolutePath
  else
    let targetPath := joinPath destAbs cleanedName
    if isPathWithinBoundary targetPath destAbs then .ok targetPath
    else .error .traversalAttempt

/-- A lexical file-system node.  File content is a byte list; `mode` is the
permission-bit word; `mtime` a timestamp.  Symlinks store their raw target
text, exactly as `os.Symlink` receives it. -/
inductive FNode where
  | dir (mode : Nat) (mtime : Int)
  | file (content : List Nat) (mode : Nat) (mtime : Int)
  | symlink (target : String)
  deriving DecidableEq, Repr

/-- The file system: an association list from cleaned absolute path strings
to nodes.  Paths reaching it in this development are cleaned and absolute. -/
abbrev FS := List (String × FNode)

/-- Look a path up in the file system (no symlink following; see the module
comment). -/
def lookupFS (fs : FS) (p : String) : Option FNode :=
  match fs.find? (fun e => e.1 == p) with
  | some e => some e.2
  | none => none

/-- Create or replace the node at a path. -/
def setFS (fs : FS) (p : String) (n : FNode) : FS :=
  (p, n) :: fs.filter (fun e => e.1 != p)

/-- Is `q` the path `p` itself or lexically underneath it? -/
def underOrEq (p q : String) : Bool :=
  q == p || (p.data ++ ['/']).isPrefixOf q.data

/-- `os.RemoveAll`: delete the node at `p` and every node underneath it. -/
def removeAllFS (fs : FS) (p : String) : FS :=
  fs.filter (fun e => !(underOrEq p e.1))

/-- Rebuild the absolute path named by a reversed segment list. -/
def absOfRSegs (rsegs : List (List Char)) : String :=
  ⟨'/' :: joinSegs rsegs.reverse⟩

/-- Worker for `os.MkdirAll` on an absolute path given as a reversed
segment list: Go stats the deepest path first (existing directory is a
no-op, an existing non-directory is `ENOTDIR`), recursively ensures the
parent, then creates the directory.  Creations happen while unwinding, so
an error creates nothing. -/
def mkdirAllR (mode : Nat) (fs : FS) : List (List Char) → Except XErr FS
  | [] => .ok fs
  | s :: rest =>
    let p := absOfRSegs (s :: rest)
    match lookupFS fs p with
    | some (.dir _ _) => .ok fs
    | some _ => .error .notDir
    | none =>
      match mkdirAllR mode fs rest with
      | .error e => .error e
      | .ok fs1 => .ok (setFS fs1 p (.dir mode 0))

/-- The non-empty slash-separated segments of a path string. -/
def segsOf (p : String) : List (List Char) :=
  (splitOnSlash p.data).filter (fun s => s != [])

/-- `os.MkdirAll` for the absolute, cleaned paths this code passes to it. -/
def mkdirAll (mode : Nat) (p : String) (fs : FS) : Except XErr FS :=
  mkdirAllR mode fs (segsOf p).reverse

/-- `os.Chtimes` (only the modification time is modelled; the code passes
`time.Now()` as access time and never reads it back).  Not called on
symlinks by this code. -/
def chtimes (p : String) (mtime : Int) (fs : FS) : Except XErr FS :=
  match lookupFS fs p with
  | some (.dir mode _) => .ok (setFS fs p (.dir mode mtime))
  | some (.file c mode _) => .ok (setFS fs p (.file c mode mtime))
  | some (.symlink _) => .ok fs
  | none => .error .ioError

/-- Extraction session state: the file system plus the
`extractedSymlinks` map (newest binding first, as map assignment
overwrites). -/
structure XState where
  fs : FS
  links : List (String × String)
  deriving DecidableEq, Repr

/-- Lookup in the `extractedSymlinks` map. -/
def lookupLinks (l : List (String × String)) (p : String) : Option String :=
  match l.find? (fun e => e.1 == p) with
  | some e => some e.2
  | none => none

/-- `processDirectory` from `targzip.go`: `MkdirAll` with the header mode,
then `Chtimes` to the stored modification time.  The pair carries the file
system reached when an error aborts the operation. -/
def processDirectory (targetPath : String) (h : THeader) (fs : FS) : Option XErr × FS :=
  match mkdirAll h.mode targetPath fs with
  | .error e => (some e, fs)
  | .ok fs1 =>
    match chtimes targetPath h.modTime fs1 with
    | .error e => (some e, fs1)
    | .ok fs2 => (none, fs2)

/-- `processFile` from `targzip.go`: create parent directories (mode 0755),
fail with a file-conflict error when the target exists, otherwise create
the file with the header mode, copy at most `header.Size` content bytes
through the `LimitReader`, and set the modification time. -/
def processFile (path : String) (h : THeader) (content : List Nat) (fs : FS) :
    Option XErr × FS :=
  match mkdirAll 493 (goDir path) fs with
  | .error e => (some e, fs)
  | .ok fs1 =>
    match lookupFS fs1 path with
    | some _ => (some .fileConflict, fs1)
    | none =>
      let fs2 := setFS fs1 path (.file (content.take h.size) h.mode 0)
      match chtimes path h.modTime fs2 with
      | .error e => (some e, fs2)
      | .ok fs3 => (none, fs3)

/-- Worker for `checkSymlinkChain`, structurally recursive on the number
of hops left before the depth bound (`maxDepth - depth` in the Go code):
follow previously recorded symlinks from `targetPath`, re-guarding every
hop and detecting a return to `originalLink`. -/
def checkSymlinkChainAux (links : List (String × String))
    (originalLink destAbs : String) : Nat → String → Option XErr
  | 0, _ => some .chainTooDeep
  | Nat.succ rem, targetPath =>
    match lookupLinks links targetPath with
    | none => none
    | some linkTarget =>
      let linkDir := goDir targetPath
      let nextTarget := clean (joinPath linkDir linkTarget)
      if !(isPathWithinBoundary nextTarget destAbs) then some .symlinkEscape
      else if nextTarget == originalLink then some .circularSymlink
      else checkSymlinkChainAux links originalLink destAbs rem nextTarget

/-- `checkSymlinkChain` from `targzip.go`: the Go function recurses with
`depth + 1` and fails once `depth >= 10`, which is exactly a countdown
from `10 - depth` remaining hops. -/
def checkSymlinkChain (links : List (String × String))
    (originalLink targetPath destAbs : String) (depth : Nat) : Option XErr :=
  checkSymlinkChainAux links originalLink destAbs (10 - depth) targetPath

/-- `processSymlink` from `targzip.go`, in source order: create the parent
directories first, then validate (absolute target, boundary guard on the
resolved target, direct self-loop, two-entry cycle via the recorded map,
then the recursive chain check), then `RemoveAll` whatever occupies the
target path, create the symlink with the raw link text, and record it. -/
def processSymlink (h : THeader) (targetPath destAbs : String) (st : XState) :
    Option XErr × XState :=
  let linkTarget := h.linkname
  match mkdirAll 493 (goDir targetPath) st.fs with
  | .error e => (some e, st)
  | .ok fs1 =>
    let st1 : XState := ⟨fs1, st.links⟩
    if isAbs linkTarget then (some .absoluteSymlink, st1)
    else
      let linkDir := goDir targetPath
      let resolvedTarget := clean (joinPath linkDir linkTarget)
      if !(isPathWithinBoundary resolvedTarget destAbs) then (some .symlinkEscape, st1)
      else if resolvedTarget == targetPath then (some .circularSymlink, st1)
      else
        let circularBack :=
          match lookupLinks st.links resolvedTarget with
          | some existingTarget =>
            clean (joinPath (goDir resolvedTarget) existingTarget) == targetPath
          | none => false
        if circularBack then (some .circularSymlink, st1)
        else
          match checkSymlinkChain st.links targetPath resolvedTarget destAbs 0 with
          | some e => (some e, st1)
          | none =>
            let fs2 := removeAllFS fs1 targetPath
            let fs3 := setFS fs2 targetPath (.symlink h.linkname)
            (none, ⟨fs3, (targetPath, linkTarget) :: st.links⟩)

/-- `processHardLink` from `targzip.go`: resolve the link target against
the destination root, guard it, create parents, `RemoveAll` the target
path, then `os.Link`.  Hard-link aliasing is modelled as a node copy
(extraction never writes through an existing path afterwards); a missing
or directory link target makes `os.Link` fail. -/
def processHardLink (h : THeader) (targetPath destAbs : String) (fs : FS) :
    Option XErr × FS :=
  let linkTarget := joinPath destAbs h.linkname
  if !(isPathWithinBoundary linkTarget destAbs) then (some .hardLinkEscape, fs)
  else
    match mkdirAll 493 (goDir targetPath) fs with
    | .error e => (some e, fs)
    | .ok fs1 =>
      let fs2 := removeAllFS fs1 targetPath
      match lookupFS fs2 linkTarget with
      | some (.file c mode mtime) => (none, setFS fs2 targetPath (.file c mode mtime))
      | some (.symlink t) => (none, setFS fs2 targetPath (.symlink t))
      | some (.dir _ _) => (some .ioError, fs2)
      | none => (some .ioError, fs2)

/-- `processItem` from `targzip.go`: dispatch on the tar type flag.
Character/block devices, FIFOs and GNU sparse entries go through
`processFile` like regular files. -/
def processItem (entry : TEntry) (targetPath destAbs : String) (st : XState) :
    Option XErr × XState :=
  match entry.header.typeflag with
  | .dir =>
    let r := processDirectory targetPath entry.header st.fs
    (r.1, ⟨r.2, st.links⟩)
  | .reg | .chr | .blk | .fifo | .gnuSparse =>
    let r := processFile targetPath entry.header entry.content st.fs
    (r.1, ⟨r.2, st.links⟩)
  | .symlink => processSymlink entry.header targetPath destAbs st
  | .link =>
    let r := processHardLink entry.header targetPath destAbs st.fs
    (r.1, ⟨r.2, st.links⟩)
  | .other => (some .unsupportedEntryKind, st)

/-- The entry loop of `Unarchive`: for each entry compute the guarded
target path, then dispatch; the first error aborts, leaving the partial
state (extraction is not transactional). -/
def runEntries (destAbs : String) : List TEntry → XState → Option XErr × XState
  | [], st => (none, st)
  | e :: rest, st =>
    match getTargetPath e.header.name destAbs with
    | .error err => (some err, st)
    | .ok targetPath =>
      match processItem e targetPath destAbs st with
      | (some err, st1) => (some err, st1)
      | (none, st1) => runEntries destAbs rest st1

/-- `Unarchive` from `targzip.go`, for an absolute destination path (for
which `filepath.Abs` reduces to `Clean`): reset the symlink map, create the
destination root, then process the de-framed entry stream. -/
def unarchive (entries : List TEntry) (dest : String) (fs : FS) : Option XErr × FS :=
  let destAbs := clean dest
  match mkdirAll 493 destAbs fs with
  | .error e => (some e, fs)
  | .ok fs1 =>
    let r := runEntries destAbs entries ⟨fs1, []⟩
    (r.1, r.2.fs)

/-- The per-path record `filterRedundantPaths` builds: the path as given,
its absolute form (with a trailing separator appended for directories), and
whether it is a directory. -/
structure PathInfo where
  original : String
  abs : String
  isDir : Bool
  deriving DecidableEq, Repr

/-- The `filepath.Abs` + `os.Stat` phase of `filterRedundantPaths`.  The
operating system is abstracted as `env`: for a resolvable path it yields
the absolute path and whether it is a directory; `none` means `Abs` or
`Stat` failed. -/
def collectInfos (env : String → Option (String × Bool)) :
    List String → Except XErr (List PathInfo)
  | [] => .ok []
  | p :: rest =>
    match env p with
    | none => .error .pathResolution
    | some (absPath, isDir) =>
      let abs1 : String :=
        if isDir && !(absPath.data.getLast? == some '/') then absPath ++ "/" else absPath
      match collectInfos env rest with
      | .error e => .error e
      | .ok infos => .ok (⟨p, abs1, isDir⟩ :: infos)

/-- Insert keeping the list sorted by nondecreasing absolute-path length
(`sort.Slice` comparator `len(i) < len(j)`; insertion after equal lengths
keeps the original order of ties). -/
def insertByLen (x : PathInfo) : List PathInfo → List PathInfo
  | [] => [x]
  | y :: ys =>
    if y.abs.data.length < x.abs.data.length then y :: insertByLen x ys else x :: y :: ys

/-- Sort by nondecreasing absolute-path length (`sort.Slice` with a
`len <` comparator in the Go code; the Go sort is unstable, so the order
among equal lengths is unspecified there — this model fixes a stable
order, which neither the guarantees nor the claims depend on). -/
def sortByLen : List PathInfo → List PathInfo
  | [] => []
  | x :: xs => insertByLen x (sortByLen xs)

/-- Is `info` covered by some earlier entry of the sorted list: an earlier
entry that is a directory and whose (separator-terminated) absolute path
is a string prefix of this one's? -/
def isRedundant (prev : List PathInfo) (info : PathInfo) : Bool :=
  prev.any (fun p => p.isDir && p.abs.data.isPrefixOf info.abs.data)

/-- The filtering loop: every element is tested against all earlier
elements of the sorted list (including ones already found redundant, as in
the Go code) and contributes its original path if not covered. -/
def filterSorted (seen : List PathInfo) : List PathInfo → List String
  | [] => []
  | i :: rest =>
    if isRedundant seen i then filterSorted (seen ++ [i]) rest
    else i.original :: filterSorted (seen ++ [i]) rest

/-- `filterRedundantPaths` from `common.go`.  Lists of at most one element
are returned unchanged before any resolution is attempted. -/
def filterRedundantPaths (env : String → Option (String × Bool)) (paths : List String) :
    Except XErr (List String) :=
  if paths.length ≤ 1 then .ok paths
  else
    match collectInfos env paths with
    | .error e => .error e
    | .ok infos => .ok (filterSorted [] (sortByLen infos))

/-- The options record of `archiver.go`. -/
structure Options where
  CompressionLevel : Int
  PreservePath : Bool
  deriving DecidableEq, Repr

/-- The archiver configuration produced by `NewArchiver`. -/
structure TarGzipArchiver where
  CompressionLevel : Int
  PreservePath : Bool
  deriving DecidableEq, Repr

/-- `WithCompressionLevel` option from `archiver.go`. -/
def WithCompressionLevel (level : Int) : Options → Options :=
  fun o => { o with CompressionLevel := level }

/-- `WithPreservePath` option from `archiver.go`. -/
def WithPreservePath (preservePath : Bool) : Options → Options :=
  fun o => { o with PreservePath := preservePath }

/-- `NewArchiver` from `archiver.go`: apply the options to the defaults
(level `-1`, no path preservation) and accept only the `tar.gz` format.
No other validation happens at construction. -/
def NewArchiver (format : String) (opts : List (Options → Options)) :
    Except XErr TarGzipArchiver :=
  let options := opts.foldl (fun o f => f o) ⟨-1, false⟩
  if format = "tar.gz" then .ok ⟨options.CompressionLevel, options.PreservePath⟩
  else .error .unsupportedFormat

/-- `gzip.NewWriterLevel`'s level validation (Go stdlib): levels outside
`[-2, 9]` are rejected when `Archive` opens the compression stream. -/
def gzipNewWriterLevel (level : Int) : Except XErr Unit :=
  if level < -2 ∨ 9 < level then .error .ioError else .ok ()

/-- `archive/tar.Writer.Write` for one regular-file entry: it accepts at
most the `remaining` bytes declared by the entry's header, truncates an
overlong write to that budget and reports `ErrWriteTooLong`. -/
def tarWrite (b : List Nat) (remaining : Nat) : List Nat × Option XErr :=
  if remaining < b.length then (b.take remaining, some .ioError) else (b, none)

/-- `copyFileContent` from `targzip.go`: re-`Stat` the opened file, wrap it
in `io.LimitReader` at that fresh size (so the read limit is the size at
copy time, not the size recorded in the header), and copy into the tar
writer, which enforces the header budget `headerRemaining`.  `contentNow`
is the file's bytes at copy time. -/
def copyFileContent (contentNow : List Nat) (headerRemaining : Nat) :
    List Nat × Option XErr :=
  let statSize := contentNow.length
  tarWrite (contentNow.take statSize) headerRemaining

/-- A source file tree, the model of what the file system holds underneath
a path handed to `Archive` (Go walks the real file system with
`filepath.Walk`; `lstat` metadata is carried on each node).  Symlink
nodes carry only their target text, which is all the codec reads from
them. -/
inductive FTree where
  | file (content : List Nat) (mode : Nat) (mtime : Int)
  | symlink (target : String)
  | dir (mode : Nat) (mtime : Int) (children : List (String × FTree))

/-- `tar.FileInfoHeader` as used by `createHeader` in the writer: symlinks
are marked with their raw link text (never followed), directories and
regular files carry mode, size and modification time.  The link mode and
time are not round-tripped by the codec and are fixed here. -/
def createHeader : FTree → THeader
  | .file c mode mt => ⟨"", .reg, "", c.length, mode, mt⟩
  | .dir mode mt _ => ⟨"", .dir, "", 0, mode, mt⟩
  | .symlink target => ⟨"", .symlink, target, 0, 511, 0⟩

/-- Go `filepath.Base` on Unix. -/
def goBase (p : String) : String :=
  if p.data.isEmpty then "."
  else
    let cs := p.data.reverse.dropWhile (fun c => c == '/')
    if cs.isEmpty then "/"
    else ⟨(cs.takeWhile (fun c => c != '/')).reverse⟩

/-- Strip the common leading segments of two segment lists. -/
def relSegs : List (List Char) → List (List Char) → List (List Char) × List (List Char)
  | b :: bs, t :: ts => if b = t then relSegs bs ts else (b :: bs, t :: ts)
  | bs, ts => (bs, ts)

/-- Go `filepath.Rel` on Unix: clean both paths, require the same
rootedness, strip the common leading segments, refuse when the remaining
base starts with `..`, and prefix one `..` per remaining base segment. -/
def goRel (basepath targpath : String) : Except XErr String :=
  let base := clean basepath
  let targ := clean targpath
  if targ == base then .ok "."
  else
    let baseS := if base == "." then [] else segsOf base
    let targS := if targ == "." then [] else segsOf targ
    if isAbs base != isAbs targ then .error .ioError
    else
      let rem := relSegs baseS targS
      if rem.1.head? == some ['.', '.'] then .error .ioError
      else
        let ups : List (List Char) := rem.1.map (fun _ => ['.', '.'])
        .ok ⟨joinSegs (ups ++ rem.2)⟩

/-- `setHeaderName` from the archive writer: a directory source names each
entry relative to the source's parent (so the directory's own leaf name is
always included); a file source honours the preserve-path flag; directory
entry names get a trailing separator; any leading separator is trimmed. -/
def setHeaderName (preservePath sourceIsDir : Bool) (source path : String)
    (h : THeader) : Except XErr THeader :=
  match (if sourceIsDir then goRel (goDir source) path
         else .ok (if preservePath then source else goBase path)) with
  | .error e => .error e
  | .ok n0 =>
    let n1 := if h.typeflag == .dir && !(n0.data.getLast? == some '/') then n0 ++ "/" else n0
    let n2 : String := if n1.data.head? == some '/' then ⟨n1.data.tail⟩ else n1
    .ok { h with name := n2 }

mutual

/-- `filepath.Walk` order over a source tree: the visited path and node,
parent before children, children in their stored order (Go visits them in
sorted name order; sortedness is carried as a well-formedness hypothesis
where it matters, not re-sorted here). -/
def walkTree (path : String) : FTree → List (String × FTree)
  | .file c m mt => [(path, .file c m mt)]
  | .symlink t => [(path, .symlink t)]
  | .dir m mt children => (path, .dir m mt children) :: walkChildren path children

/-- The walk of a directory's children, each child before the next. -/
def walkChildren (path : String) : List (String × FTree) → List (String × FTree)
  | [] => []
  | c :: rest => walkTree (path ++ "/" ++ c.1) c.2 ++ walkChildren path rest

end


/-- `archiveSource` from the writer: walk the source tree, build and name
each header, and for regular files stream the content through
`copyFileContent` under the header's size budget. -/
def archiveSource (arch : TarGzipArchiver) (source : String) (tree : FTree) :
    Except XErr (List TEntry) :=
  let sourceIsDir := match tree with | .dir _ _ _ => true | _ => false
  (walkTree source tree).foldlM (fun acc pt =>
    match setHeaderName arch.PreservePath sourceIsDir source pt.1 (createHeader pt.2) with
    | .error e => .error e
    | .ok h =>
      let content :=
        match pt.2 with
        | .file c _ _ => (copyFileContent c h.size).1
        | _ => []
      .ok (acc ++ [⟨h, content⟩])) []

/-- The tree standing at each source path (the walk's view of the file
system). -/
def findTree (sources : List (String × FTree)) (p : String) : Option FTree :=
  match sources.find? (fun e => e.1 == p) with
  | some e => some e.2
  | none => none

/-- `Archive` from `targzip.go` (cancellation aside): filter redundant
sources, open the gzip stream at the configured level (where an invalid
level first fails), then walk each surviving source in order, concatenating
the entries written to the tar stream. -/
def archive (arch : TarGzipArchiver) (env : String → Option (String × Bool))
    (sources : List (String × FTree)) : Except XErr (List TEntry) :=
  match filterRedundantPaths env (sources.map (fun e => e.1)) with
  | .error e => .error e
  | .ok filtered =>
    match gzipNewWriterLevel arch.CompressionLevel with
    | .error e => .error e
    | .ok _ =>
      filtered.foldlM (fun acc p =>
        match findTree sources p with
        | none => .error .ioError
        | some t =>
          match archiveSource arch p t with
          | .error e => .error e
          | .ok es => .ok (acc ++ es)) []

/-!  Path-segment infrastructure for the proofs. -/

/-- A canonical path segment: nonempty, slash-free, and not a dot
segment.  The segments of any cleaned absolute path are of this shape. -/
def NiceSeg (s : List Char) : Prop :=
  s ≠ [] ∧ '/' ∉ s ∧ s ≠ ['.'] ∧ s ≠ ['.', '.']

instance (s : List Char) : Decidable (NiceSeg s) :=
  inferInstanceAs (Decidable (s ≠ [] ∧ '/' ∉ s ∧ s ≠ ['.'] ∧ s ≠ ['.', '.']))

/-- All segments canonical. -/
def NiceSegs (ss : List (List Char)) : Prop := ∀ s ∈ ss, NiceSeg s

instance (ss : List (List Char)) : Decidable (NiceSegs ss) :=
  inferInstanceAs (Decidable (∀ s ∈ ss, NiceSeg s))

/-- The absolute path spelled by a segment list. -/
def absOfSegs (ss : List (List Char)) : String := ⟨'/' :: joinSegs ss⟩

/-- The separator-terminated absolute form `filterRedundantPaths` compares
with (directories get a trailing separator). -/
def absWithSlash (a : String) (isDir : Bool) : String :=
  if isDir && !(a.data.getLast? == some '/') then a ++ "/" else a

/-- Ordering used by the filter's sort: nondecreasing absolute-path
length. -/
def infoLE (a b : PathInfo) : Prop := a.abs.data.length ≤ b.abs.data.length

/-- Concrete environment for the spec's Redundant Path Filter example:
`dirA` and `dirB` are sibling directories, `dirA/fileX` a file inside
`dirA`. -/
def envC9 : String → Option (String × Bool) := fun p =>
  if p = "dirA" then some ("/r/dirA", true)
  else if p = "dirA/fileX" then some ("/r/dirA/fileX", false)
  else if p = "dirB" then some ("/r/dirB", true)
  else none

/-- A symlink tar entry with the given name and link target. -/
def symEntry (n t : String) : TEntry := ⟨⟨n, .symlink, t, 0, 0, 0⟩, []⟩

/-- An eleven-entry nested symlink chain, created deepest-first:
`l11 -> l12`, `l10 -> l11`, ..., `l1 -> l2`.  When the final entry `l1`
is processed, the recorded chain `l2 -> l3 -> ... -> l11 -> l12` is
walked. -/
def chain11 : List TEntry :=
  (List.range 11).map (fun i =>
    symEntry ("l" ++ toString (11 - i)) ("l" ++ toString (12 - i)))

/-- The same construction one link shorter (ten entries), which the chain
validator accepts. -/
def chain10 : List TEntry :=
  (List.range 10).map (fun i =>
    symEntry ("l" ++ toString (10 - i)) ("l" ++ toString (11 - i)))

/-- A one-directory starting file system holding only the destination
root. -/
def fsRoot : FS := [("/d", .dir 493 0)]

/-! ### The no-write-outside-root invariant (claim C1)

`WFfs` says every key the file system stores is a cleaned absolute path;
`AncestorsExist` says the proper lexical ancestors of the destination root
are present; `DeltaWithin` says all differences between two file systems
lie within the boundary.  Every file-system operation `Unarchive` performs
is shown to preserve the first two and satisfy the third. -/

/-- Well-formed file system: every stored key is a cleaned absolute path
(the root plus nonempty, slash-free, dot-free segments). -/
def WFfs (fs : FS) : Prop :=
  ∀ e ∈ fs, ∃ ss, NiceSegs ss ∧ e.1 = absOfSegs ss

/-- Every proper lexical ancestor of the destination root is present. -/
def AncestorsExist (dss : List (List Char)) (fs : FS) : Prop :=
  ∀ k, k < dss.length → lookupFS fs (absOfSegs (dss.take k)) ≠ none

/-- All lookup differences between `fs` and `fs1` are at paths within the
boundary `destAbs`. -/
def DeltaWithin (destAbs : String) (fs fs1 : FS) : Prop :=
  ∀ q, lookupFS fs1 q ≠ lookupFS fs q → isPathWithinBoundary q destAbs = true

/-! ### Claim C4: the archive/unarchive round trip -/

/-- The resolution environment for the C4 scenarios: two regular files
named `x` under different parents, both resolvable. -/
def envC4 : String → Option (String × Bool) := fun p =>
  if p = "/s1/x" then some ("/s1/x", false)
  else if p = "/s2/x" then some ("/s2/x", false)
  else none

/- Validation of the `Clean` model on Go documentation examples. -/

example : clean "" = "." := by decide

example : clean "abc//def//ghi" = "abc/def/ghi" := by decide

example : clean "abc/def/.." = "abc" := by decide

example : clean "abc/def/../.." = "." := by decide

example : clean "abc/def/../../.." = ".." := by decide

example : clean "/abc/def/../../.." = "/" := by decide

example : clean "abc/./def" = "abc/def" := by decide

example : clean "/../abc" = "/abc" := by decide

example : clean "a/../../b" = "../b" := by decide

example : clean "/a/b/" = "/a/b" := by decide

example : goDir "/a/b/c" = "/a/b" := by decide

example : goDir "a" = "." := by decide

example : goDir "/a" = "/" := by decide

example : joinPath "/dest" "../outside/evil.txt" = "/outside/evil.txt" := by decide

/- Validation of `isPathWithinBoundary` on every vector of the repository's
own `TestIsPathWithinBoundary` table in `common_test.go`. -/

example : isPathWithinBoundary "/path/to/dir" "/path/to/dir" = true := by decide

example : isPathWithinBoundary "/path/to/dir/child" "/path/to/dir" = true := by decide

example : isPathWithinBoundary "/path/to" "/path/to/dir" = false := by decide

example : isPathWithinBoundary "/path/to/other" "/path/to/dir" = false := by decide

example : isPathWithinBoundary "/path/to/dir/./child" "/path/to/dir" = true := by decide

example : isPathWithinBoundary "/path/to/dir/../dir/child" "/path/to/dir" = true := by decide

example : isPathWithinBoundary "/path/to/../dir/child" "/path/to/dir" = false := by decide

example : isPathWithinBoundary "/other/path" "/path/to/dir" = false := by decide

example : isPathWithinBoundary "" "/path/to/dir" = false := by decide

example : isPathWithinBoundary "/path/to/dir" "" = false := by decide

example : isPathWithinBoundary "dir/child" "dir" = true := by decide

example : isPathWithinBoundary "dir/child" "/dir" = false := by decide

example : isPathWithinBoundary "/path/to/dir/child/" "/path/to/dir/" = true := by decide

example : isPathWithinBoundary "/path/to/directory" "/path/to/dir" = false := by decide

example : getTargetPath "normal.txt" "/dest" = .ok "/dest/normal.txt" := rfl

example : getTargetPath "../outside/evil.txt" "/dest" = .error .traversalAttempt := rfl

example : getTargetPath "/etc/passwd" "/dest" = .error .absolutePath := rfl

example : getTargetPath "C:\\Windows" "/dest" = .error .absolutePath := rfl

example : getTargetPath "a/../b.txt" "/dest" = .ok "/dest/b.txt" := rfl

example : getTargetPath "." "/dest" = .ok "/dest" := rfl

example : goRel "/src" "/src/mydir/sub/f" = .ok "mydir/sub/f" := rfl

example : goRel "/a/b" "/a/c/d" = .ok "../c/d" := rfl

example : goRel "/a" "/a" = .ok "." := rfl

theorem splitOnSlash_ne_nil (cs : List Char) : splitOnSlash cs ≠ [] := by
  induction cs with
  | nil => simp [splitOnSlash]
  | cons c rest ih =>
    simp only [splitOnSlash]
    split
    · simp
    · cases h : splitOnSlash rest with
      | nil => simp
      | cons s tail => simp

theorem splitOnSlash_append (xs ys : List Char) :
    splitOnSlash (xs ++ '/' :: ys) = splitOnSlash xs ++ splitOnSlash ys := by
  induction xs with
  | nil => simp [splitOnSlash]
  | cons c rest ih =>
    by_cases hc : c = '/'
    · simp [splitOnSlash, hc, ih]
    · simp only [List.cons_append, splitOnSlash, if_neg hc]
      cases h : splitOnSlash rest with
      | nil => exact absurd h (splitOnSlash_ne_nil rest)
      | cons s tail =>
        simp only [List.append_eq]
        rw [ih, h]
        simp

theorem splitOnSlash_no_slash (cs : List Char) (h : '/' ∉ cs) :
    splitOnSlash cs = [cs] := by
  induction cs with
  | nil => simp [splitOnSlash]
  | cons c rest ih =>
    simp only [List.mem_cons, not_or] at h
    have hc : c ≠ '/' := fun hc => h.1 hc.symm
    have := ih h.2
    simp [splitOnSlash, hc, this]

theorem splitOnSlash_mem_no_slash (cs : List Char) :
    ∀ s ∈ splitOnSlash cs, '/' ∉ s := by
  induction cs with
  | nil => simp [splitOnSlash]
  | cons c rest ih =>
    simp only [splitOnSlash]
    split
    · intro s hs
      rcases List.mem_cons.mp hs with h | h
      · simp [h]
      · exact ih s h
    · rename_i hc
      cases h : splitOnSlash rest with
      | nil => exact absurd h (splitOnSlash_ne_nil rest)
      | cons t tail =>
        intro s hs
        rcases List.mem_cons.mp hs with h1 | h1
        · subst h1
          have ht : '/' ∉ t := ih t (h ▸ List.mem_cons_self t tail)
          simp only [List.mem_cons, not_or]
          exact ⟨fun hc2 => hc hc2.symm, ht⟩
        · exact ih s (h ▸ List.mem_cons_of_mem t h1)

theorem joinSegs_cons (s : List Char) (ss : List (List Char)) (h : ss ≠ []) :
    joinSegs (s :: ss) = s ++ '/' :: joinSegs ss := by
  cases ss with
  | nil => exact absurd rfl h
  | cons t ts => rfl

theorem joinSegs_append (ss ts : List (List Char)) (hss : ss ≠ []) (hts : ts ≠ []) :
    joinSegs (ss ++ ts) = joinSegs ss ++ '/' :: joinSegs ts := by
  induction ss with
  | nil => exact absurd rfl hss
  | cons s rest ih =>
    cases rest with
    | nil =>
      cases ts with
      | nil => exact absurd rfl hts
      | cons t ts2 => simp [joinSegs]
    | cons r rest2 =>
      have h1 : joinSegs (s :: r :: rest2 ++ ts) = s ++ '/' :: joinSegs (r :: rest2 ++ ts) := by
        apply joinSegs_cons
        simp
      rw [List.cons_append] at h1 ⊢
      rw [h1, ih (by simp), joinSegs_cons s (r :: rest2) (by simp)]
      simp

theorem splitOnSlash_joinSegs (ss : List (List Char)) (hne : ss ≠ [])
    (h : ∀ s ∈ ss, '/' ∉ s) : splitOnSlash (joinSegs ss) = ss := by
  induction ss with
  | nil => exact absurd rfl hne
  | cons s rest ih =>
    cases rest with
    | nil => simpa [joinSegs] using splitOnSlash_no_slash s (h s (by simp))
    | cons r rest2 =>
      rw [joinSegs_cons s (r :: rest2) (by simp), splitOnSlash_append,
        splitOnSlash_no_slash s (h s (by simp)),
        ih (by simp) (fun t ht => h t (List.mem_cons_of_mem s ht))]
      rfl

theorem cleanStep_push (rooted : Bool) (acc : List (List Char)) (s : List Char)
    (hs : s ≠ ['.', '.']) : cleanStep rooted acc s = s :: acc := by
  simp [cleanStep, hs]

theorem foldl_cleanStep_nodots (rooted : Bool) (ss : List (List Char))
    (h : ∀ s ∈ ss, s ≠ ['.', '.']) :
    ∀ acc, ss.foldl (cleanStep rooted) acc = ss.reverse ++ acc := by
  induction ss with
  | nil => intro acc; rfl
  | cons s rest ih =>
    intro acc
    rw [List.foldl_cons, cleanStep_push rooted acc s (h s (by simp)),
      ih (fun t ht => h t (List.mem_cons_of_mem s ht))]
    simp

theorem cleanSegsOf_abs (ss : List (List Char)) (h : NiceSegs ss) :
    cleanSegsOf ('/' :: joinSegs ss) = ss := by
  cases hss : ss with
  | nil => rfl
  | cons s rest =>
    unfold cleanSegsOf
    have hz : splitOnSlash ('/' :: joinSegs ss) = [] :: splitOnSlash (joinSegs ss) := by
      simp [splitOnSlash]
    subst hss
    rw [hz, splitOnSlash_joinSegs (s :: rest) (by simp)
      (fun t ht => ((h t ht).2.1 : '/' ∉ t))]
    have hstep : (([] : List Char) :: s :: rest).filter (fun t => (t != []) && (t != ['.'])) =
        (s :: rest).filter (fun t => (t != []) && (t != ['.'])) := rfl
    rw [hstep]
    apply List.filter_eq_self.mpr
    intro t ht
    have hn := h t ht
    simp only [Bool.and_eq_true, bne_iff_ne, ne_eq]
    exact ⟨hn.1, hn.2.2.1⟩

theorem cleanData_abs (ss : List (List Char)) (h : NiceSegs ss) :
    cleanData ('/' :: joinSegs ss) = '/' :: joinSegs ss := by
  unfold cleanData
  rw [if_neg (by simp)]
  simp only [List.head?_cons, show ((some '/' : Option Char) == some '/') = true from rfl]
  rw [cleanSegsOf_abs ss h,
    foldl_cleanStep_nodots true ss (fun s hs => (h s hs).2.2.2) [],
    List.append_nil, List.reverse_reverse]
  simp

theorem clean_absOfSegs (ss : List (List Char)) (h : NiceSegs ss) :
    clean (absOfSegs ss) = absOfSegs ss := by
  unfold clean absOfSegs
  exact congrArg String.mk (cleanData_abs ss h)

theorem segsOf_absOfSegs (ss : List (List Char)) (h : NiceSegs ss) :
    segsOf (absOfSegs ss) = ss := by
  unfold segsOf absOfSegs
  cases hss : ss with
  | nil => rfl
  | cons s rest =>
    subst hss
    simp only
    have hz : splitOnSlash ('/' :: joinSegs (s :: rest)) =
        [] :: splitOnSlash (joinSegs (s :: rest)) := by
      simp [splitOnSlash]
    rw [hz, splitOnSlash_joinSegs (s :: rest) (by simp)
      (fun t ht => ((h t ht).2.1 : '/' ∉ t))]
    have hstep : (([] : List Char) :: s :: rest).filter (fun t => t != []) =
        (s :: rest).filter (fun t => t != []) := rfl
    rw [hstep]
    apply List.filter_eq_self.mpr
    intro t ht
    simpa using (h t ht).1

theorem cleanSegsOf_mem (cs : List Char) :
    ∀ s ∈ cleanSegsOf cs, s ≠ [] ∧ s ≠ ['.'] ∧ '/' ∉ s := by
  intro s hs
  unfold cleanSegsOf at hs
  have h1 := List.mem_filter.mp hs
  have h2 := splitOnSlash_mem_no_slash cs s h1.1
  have h3 := h1.2
  simp only [Bool.and_eq_true, bne_iff_ne, ne_eq] at h3
  exact ⟨h3.1, h3.2, h2⟩

theorem cleanStep_rooted_nodots (acc : List (List Char)) (s : List Char)
    (hacc : ∀ a ∈ acc, a ≠ ['.', '.']) :
    ∀ t ∈ cleanStep true acc s, (t = s ∧ s ≠ ['.', '.']) ∨ t ∈ acc := by
  intro t ht
  by_cases hs : s = ['.', '.']
  · subst hs
    cases acc with
    | nil =>
      rw [show cleanStep true [] ['.', '.'] = [] from rfl] at ht
      simp at ht
    | cons a rest =>
      rw [show cleanStep true (a :: rest) ['.', '.'] =
          (if a = ['.', '.'] then ['.', '.'] :: a :: rest else rest) from rfl] at ht
      rw [if_neg (hacc a (by simp))] at ht
      exact Or.inr (List.mem_cons_of_mem a ht)
  · rw [cleanStep_push true acc s hs] at ht
    rcases List.mem_cons.mp ht with h | h
    · exact Or.inl ⟨h, hs⟩
    · exact Or.inr h

theorem foldl_cleanStep_rooted_nice (ss : List (List Char)) :
    ∀ acc, (∀ s ∈ ss, s ≠ [] ∧ s ≠ ['.'] ∧ '/' ∉ s) → NiceSegs acc →
    NiceSegs (ss.foldl (cleanStep true) acc) := by
  induction ss with
  | nil => intro acc _ hacc; exact hacc
  | cons s rest ih =>
    intro acc hss hacc
    rw [List.foldl_cons]
    apply ih _ (fun t ht => hss t (List.mem_cons_of_mem s ht))
    intro t ht
    rcases cleanStep_rooted_nodots acc s (fun a ha => (hacc a ha).2.2.2) t ht with h | h
    · obtain ⟨heq, hdd⟩ := h
      obtain ⟨h1, h2, h3⟩ := hss s (by simp)
      rw [heq]
      exact ⟨h1, h3, h2, hdd⟩
    · exact hacc t h

theorem cleanStep_mem (rooted : Bool) (acc : List (List Char)) (s : List Char) :
    ∀ t ∈ cleanStep rooted acc s, t = s ∨ t ∈ acc := by
  intro t ht
  by_cases hs : s = ['.', '.']
  · subst hs
    cases acc with
    | nil =>
      rw [show cleanStep rooted [] ['.', '.'] =
          (if rooted then [] else [['.', '.']]) from rfl] at ht
      by_cases hr : rooted
      · rw [if_pos hr] at ht; simp at ht
      · rw [if_neg hr] at ht
        simp at ht
        exact Or.inl ht
    | cons a rest =>
      rw [show cleanStep rooted (a :: rest) ['.', '.'] =
          (if a = ['.', '.'] then ['.', '.'] :: a :: rest else rest) from rfl] at ht
      by_cases ha : a = ['.', '.']
      · rw [if_pos ha] at ht
        exact List.mem_cons.mp ht
      · rw [if_neg ha] at ht
        exact Or.inr (List.mem_cons_of_mem a ht)
  · rw [cleanStep_push rooted acc s hs] at ht
    exact List.mem_cons.mp ht

theorem foldl_cleanStep_nonempty (rooted : Bool) (ss : List (List Char)) :
    ∀ acc, (∀ s ∈ ss, s ≠ []) → (∀ s ∈ acc, s ≠ []) →
    ∀ s ∈ ss.foldl (cleanStep rooted) acc, s ≠ [] := by
  induction ss with
  | nil => intro acc _ hacc; exact hacc
  | cons s rest ih =>
    intro acc hss hacc
    rw [List.foldl_cons]
    apply ih _ (fun t ht => hss t (List.mem_cons_of_mem s ht))
    intro t ht
    rcases cleanStep_mem rooted acc s t ht with h | h
    · exact h ▸ hss s (by simp)
    · exact hacc t h

theorem joinSegs_ne_nil (ss : List (List Char)) (hne : ss ≠ [])
    (h : ∀ s ∈ ss, s ≠ []) : joinSegs ss ≠ [] := by
  cases ss with
  | nil => exact absurd rfl hne
  | cons s rest =>
    cases rest with
    | nil => simpa [joinSegs] using h s (by simp)
    | cons r rest2 => simp [joinSegs]

theorem cleanData_ne_nil (cs : List Char) : cleanData cs ≠ [] := by
  unfold cleanData
  by_cases h0 : cs = []
  · simp [h0]
  · rw [if_neg h0]
    by_cases hr : (cs.head? == some '/') = true
    · simp only [hr, if_true]
      simp
    · simp only [Bool.not_eq_true] at hr
      simp only [hr, Bool.false_eq_true, if_false]
      by_cases hstack : ((cleanSegsOf cs).foldl (cleanStep false) []).reverse = []
      · rw [if_pos hstack]
        simp
      · rw [if_neg hstack]
        apply joinSegs_ne_nil _ hstack
        intro s hs
        rw [List.mem_reverse] at hs
        exact foldl_cleanStep_nonempty false (cleanSegsOf cs) []
          (fun t ht => (cleanSegsOf_mem cs t ht).1) (by simp) s hs

theorem cleanData_rooted_shape (cs : List Char) (h : cs.head? = some '/') :
    ∃ ss, NiceSegs ss ∧ cleanData cs = '/' :: joinSegs ss := by
  have hne : cs ≠ [] := by
    cases cs with
    | nil => simp at h
    | cons c rest => simp
  refine ⟨((cleanSegsOf cs).foldl (cleanStep true) []).reverse, ?_, ?_⟩
  · intro s hs
    rw [List.mem_reverse] at hs
    exact foldl_cleanStep_rooted_nice (cleanSegsOf cs) [] (cleanSegsOf_mem cs)
      (by intro s hs; simp at hs) s hs
  · unfold cleanData
    rw [if_neg hne]
    have hr : (cs.head? == some '/') = true := by rw [h]; rfl
    simp only [hr]
    simp

theorem dropWhile_until_slash (xs ys : List Char) (h : '/' ∉ xs) :
    (xs ++ '/' :: ys).dropWhile (fun c => c != '/') = '/' :: ys := by
  induction xs with
  | nil => simp [List.dropWhile]
  | cons x rest ih =>
    simp only [List.mem_cons, not_or] at h
    have hx : (x != '/') = true := bne_iff_ne.mpr (fun hh => h.1 hh.symm)
    simp only [List.cons_append, List.dropWhile_cons, hx, if_true]
    exact ih h.2

theorem cleanData_abs_slash (ss : List (List Char)) (h : NiceSegs ss) :
    cleanData (('/' :: joinSegs ss) ++ ['/']) = '/' :: joinSegs ss := by
  have hsegs : cleanSegsOf (('/' :: joinSegs ss) ++ ['/']) = ss := by
    unfold cleanSegsOf
    have : ('/' :: joinSegs ss) ++ ['/'] = ('/' :: joinSegs ss) ++ '/' :: [] := rfl
    rw [this, splitOnSlash_append]
    rw [List.filter_append]
    have h1 : (splitOnSlash ('/' :: joinSegs ss)).filter (fun t => (t != []) && (t != ['.'])) = ss :=
      cleanSegsOf_abs ss h
    have h2 : (splitOnSlash ([] : List Char)).filter (fun t => (t != []) && (t != ['.'])) = [] := rfl
    rw [h1, h2, List.append_nil]
  unfold cleanData
  rw [if_neg (by simp)]
  have hr : ((('/' :: joinSegs ss) ++ ['/']).head? == some '/') = true := by simp
  simp only [hr, hsegs]
  rw [foldl_cleanStep_nodots true ss (fun s hs => (h s hs).2.2.2) [],
    List.append_nil, List.reverse_reverse]
  simp

theorem dirData_abs_last (ss : List (List Char)) (s : List Char)
    (hss : NiceSegs ss) (hs : NiceSeg s) :
    dirData ('/' :: joinSegs (ss ++ [s])) = '/' :: joinSegs ss := by
  unfold dirData
  cases hcase : ss with
  | nil =>
    subst hcase
    simp only [List.nil_append]
    have h1 : ('/' :: joinSegs [s]).reverse = s.reverse ++ '/' :: ([] : List Char) := by
      simp [joinSegs]
    rw [h1, dropWhile_until_slash _ _ (by
      rw [List.mem_reverse]
      exact hs.2.1)]
    simp [cleanData, cleanSegsOf, splitOnSlash, joinSegs]
  | cons a rest =>
    subst hcase
    rw [joinSegs_append (a :: rest) [s] (by simp) (by simp)]
    have hrev : ('/' :: (joinSegs (a :: rest) ++ '/' :: joinSegs [s])).reverse =
        (joinSegs [s]).reverse ++ '/' :: ('/' :: joinSegs (a :: rest)).reverse := by
      simp
    rw [hrev, dropWhile_until_slash _ _ (by
      rw [List.mem_reverse]
      simpa [joinSegs] using hs.2.1)]
    have h2 : ('/' :: ('/' :: joinSegs (a :: rest)).reverse).reverse =
        ('/' :: joinSegs (a :: rest)) ++ ['/'] := by simp
    rw [h2]
    exact cleanData_abs_slash (a :: rest) hss

theorem goDir_absOfSegs_last (ss : List (List Char)) (s : List Char)
    (hss : NiceSegs ss) (hs : NiceSeg s) :
    goDir (absOfSegs (ss ++ [s])) = absOfSegs ss :=
  congrArg String.mk (dirData_abs_last ss s hss hs)

theorem absOfSegs_data (ss : List (List Char)) :
    (absOfSegs ss).data = '/' :: joinSegs ss := rfl

theorem isWithin_data (path dir : String) :
    isPathWithinBoundary path dir =
      ((cleanData dir.data ++ ['/']).isPrefixOf (cleanData path.data) ||
        cleanData path.data == cleanData dir.data) := rfl

theorem isWithin_refl (p : String) : isPathWithinBoundary p p = true := by
  rw [isWithin_data]
  simp

theorem niceSegs_append {dss ts : List (List Char)} (hd : NiceSegs dss)
    (ht : NiceSegs ts) : NiceSegs (dss ++ ts) := by
  intro s hs
  rcases List.mem_append.mp hs with h | h
  · exact hd s h
  · exact ht s h

theorem niceSegs_of_append_left {dss ts : List (List Char)}
    (h : NiceSegs (dss ++ ts)) : NiceSegs dss :=
  fun s hs => h s (List.mem_append.mpr (Or.inl hs))

theorem niceSegs_of_append_right {dss ts : List (List Char)}
    (h : NiceSegs (dss ++ ts)) : NiceSegs ts :=
  fun s hs => h s (List.mem_append.mpr (Or.inr hs))

theorem isWithin_absOfSegs_append (dss ts : List (List Char)) (hd : NiceSegs dss)
    (ht : NiceSegs ts) (hdss : dss ≠ []) (hts : ts ≠ []) :
    isPathWithinBoundary (absOfSegs (dss ++ ts)) (absOfSegs dss) = true := by
  rw [isWithin_data, absOfSegs_data, absOfSegs_data,
    cleanData_abs _ (niceSegs_append hd ht), cleanData_abs _ hd]
  apply Bool.or_eq_true_iff.mpr
  left
  rw [List.isPrefixOf_iff_prefix, joinSegs_append dss ts hdss hts]
  exact ⟨joinSegs ts, by simp⟩

theorem joinSegs_eq_nil_iff (ss : List (List Char)) (h : NiceSegs ss) :
    joinSegs ss = [] ↔ ss = [] := by
  constructor
  · intro hj
    by_contra hne
    exact joinSegs_ne_nil ss hne (fun s hs => (h s hs).1) hj
  · intro h2
    subst h2
    rfl

theorem absOfSegs_inj {ps qs : List (List Char)} (hp : NiceSegs ps) (hq : NiceSegs qs)
    (h : absOfSegs ps = absOfSegs qs) : ps = qs := by
  have hd : joinSegs ps = joinSegs qs := by
    have := congrArg String.data h
    rw [absOfSegs_data, absOfSegs_data] at this
    exact List.cons.inj this |>.2
  by_cases hps : ps = []
  · subst hps
    have : joinSegs qs = [] := hd.symm.trans rfl
    exact ((joinSegs_eq_nil_iff qs hq).mp this).symm
  · by_cases hqs : qs = []
    · subst hqs
      exact absurd ((joinSegs_eq_nil_iff ps hp).mp hd) hps
    · rw [← splitOnSlash_joinSegs ps hps (fun s hs => (hp s hs).2.1), hd,
        splitOnSlash_joinSegs qs hqs (fun s hs => (hq s hs).2.1)]

theorem absOfSegs_data_ext (ps qs : List (List Char)) (r : List Char)
    (hps : ps ≠ []) (hpns : ∀ s ∈ ps, '/' ∉ s) (hq : NiceSegs qs)
    (h : (absOfSegs qs).data = (absOfSegs ps).data ++ '/' :: r) :
    qs = ps ++ splitOnSlash r ∧ splitOnSlash r ≠ [] := by
  rw [absOfSegs_data, absOfSegs_data] at h
  have hj : joinSegs qs = joinSegs ps ++ '/' :: r := by
    simpa using h
  have hqs : qs ≠ [] := by
    intro hq0
    subst hq0
    simp [joinSegs] at hj
  constructor
  · rw [← splitOnSlash_joinSegs qs hqs (fun s hs => (hq s hs).2.1), hj,
      splitOnSlash_append, splitOnSlash_joinSegs ps hps hpns]
  · exact splitOnSlash_ne_nil r

theorem joinSegs_head_ne_slash (ss : List (List Char)) (h : NiceSegs ss) :
    (joinSegs ss).head? ≠ some '/' := by
  cases ss with
  | nil => simp [joinSegs]
  | cons a rest =>
    have ha := h a (by simp)
    cases hacase : a with
    | nil => exact absurd hacase ha.1
    | cons c cs =>
      have hc : c ≠ '/' := by
        intro hc0
        apply ha.2.1
        rw [hacase, hc0]
        simp
      cases rest with
      | nil =>
        simpa [joinSegs] using fun hh => hc hh
      | cons b rest2 =>
        rw [joinSegs_cons (c :: cs) (b :: rest2) (by simp)]
        simpa using fun hh => hc hh

theorem isWithin_absOfSegs_elim (qs ds : List (List Char)) (hq : NiceSegs qs)
    (hd : NiceSegs ds)
    (h : isPathWithinBoundary (absOfSegs qs) (absOfSegs ds) = true) :
    qs = ds ∨ (ds ≠ [] ∧ ∃ ts, ts ≠ [] ∧ NiceSegs ts ∧ qs = ds ++ ts) := by
  rw [isWithin_data, absOfSegs_data, absOfSegs_data,
    cleanData_abs _ hq, cleanData_abs _ hd] at h
  rcases Bool.or_eq_true_iff.mp h with h1 | h1
  · rw [List.isPrefixOf_iff_prefix] at h1
    obtain ⟨u, hu⟩ := h1
    have hds : ds ≠ [] := by
      intro h0
      subst h0
      have h2 : joinSegs qs = '/' :: u := by
        have := hu.symm
        simp [joinSegs] at this
        exact this
      have h3 := joinSegs_head_ne_slash qs hq
      rw [h2] at h3
      simp at h3
    right
    refine ⟨hds, ?_⟩
    have hext := absOfSegs_data_ext ds qs u hds (fun s hs => (hd s hs).2.1) hq (by
      rw [absOfSegs_data, absOfSegs_data]
      have h4 : ('/' :: joinSegs ds ++ ['/']) ++ u = '/' :: joinSegs ds ++ '/' :: u := by simp
      rw [← hu, h4])
    refine ⟨splitOnSlash u, hext.2, ?_, hext.1⟩
    intro s hs
    have hmem : s ∈ qs := by
      rw [hext.1]
      exact List.mem_append.mpr (Or.inr hs)
    exact hq s hmem
  · left
    have h2 : ('/' : Char) :: joinSegs qs = '/' :: joinSegs ds := eq_of_beq h1
    exact absOfSegs_inj hq hd (congrArg String.mk h2)

theorem getTargetPath_ok_within (name destAbs t : String)
    (h : getTargetPath name destAbs = .ok t) :
    t = joinPath destAbs (clean name) ∧ isPathWithinBoundary t destAbs = true := by
  unfold getTargetPath at h
  simp only [] at h
  split at h
  · cases h
  · split at h
    · cases h
    · split at h
      · rename_i hguard
        cases h
        exact ⟨rfl, hguard⟩
      · cases h

theorem joinPath_abs_shape (dss : List (List Char)) (b : String) (hb : b.data ≠ []) :
    ∃ st, NiceSegs st ∧ joinPath (absOfSegs dss) b = absOfSegs st := by
  unfold joinPath
  have h1 : (absOfSegs dss).data.isEmpty = false := by rw [absOfSegs_data]; rfl
  have hb2 : b.data.isEmpty = false := by
    cases hbd : b.data with
    | nil => exact absurd hbd hb
    | cons c cs => rfl
  rw [h1, hb2]
  simp only [Bool.false_and, Bool.false_eq_true, if_false]
  have hhead : ((absOfSegs dss).data ++ '/' :: b.data).head? = some '/' := by
    rw [absOfSegs_data]
    rfl
  obtain ⟨ss, hnice, heq⟩ := cleanData_rooted_shape _ hhead
  exact ⟨ss, hnice, congrArg String.mk heq⟩

theorem getTargetPath_ok_shape (name : String) (dss : List (List Char)) (t : String)
    (hd : NiceSegs dss) (h : getTargetPath name (absOfSegs dss) = .ok t) :
    t = absOfSegs dss ∨
      (dss ≠ [] ∧ ∃ ts, ts ≠ [] ∧ NiceSegs ts ∧ t = absOfSegs (dss ++ ts)) := by
  obtain ⟨ht, hw⟩ := getTargetPath_ok_within name _ t h
  obtain ⟨st, hst, heq⟩ := joinPath_abs_shape dss (clean name)
    (cleanData_ne_nil name.data)
  rw [ht, heq] at hw ⊢
  rcases isWithin_absOfSegs_elim st dss hst hd hw with h1 | ⟨hds, ts, hts, htn, h2⟩
  · left
    rw [h1]
  · right
    exact ⟨hds, ts, hts, htn, by rw [h2]⟩

theorem lookupFS_cons (k : String) (v : FNode) (fs : FS) (q : String) :
    lookupFS ((k, v) :: fs) q = if k = q then some v else lookupFS fs q := by
  unfold lookupFS
  by_cases h : k = q
  · subst h
    simp [List.find?]
  · have hb : (k == q) = false := by simpa using h
    simp [List.find?, hb, h]

theorem lookupFS_filter_ne (fs : FS) (p q : String) (h : q ≠ p) :
    lookupFS (fs.filter (fun e => e.1 != p)) q = lookupFS fs q := by
  induction fs with
  | nil => rfl
  | cons e rest ih =>
    obtain ⟨k, v⟩ := e
    by_cases he : (k != p) = true
    · rw [List.filter_cons, if_pos he, lookupFS_cons, lookupFS_cons, ih]
    · have hkp : k = p := by simpa using he
      rw [List.filter_cons, if_neg he, ih, lookupFS_cons,
        if_neg (by rw [hkp]; exact fun hh => h hh.symm)]

theorem lookupFS_setFS (fs : FS) (p q : String) (n : FNode) :
    lookupFS (setFS fs p n) q = if q = p then some n else lookupFS fs q := by
  unfold setFS
  rw [lookupFS_cons]
  by_cases h : q = p
  · rw [if_pos h.symm, if_pos h]
  · rw [if_neg (fun hh => h hh.symm), if_neg h, lookupFS_filter_ne fs p q h]

theorem lookupFS_removeAllFS (fs : FS) (tp q : String) :
    lookupFS (removeAllFS fs tp) q =
      if underOrEq tp q then none else lookupFS fs q := by
  induction fs with
  | nil =>
    by_cases h : underOrEq tp q = true
    · simp [removeAllFS, lookupFS, List.find?, h]
    · simp [removeAllFS, lookupFS, List.find?, h]
  | cons e rest ih =>
    obtain ⟨k, v⟩ := e
    unfold removeAllFS at ih ⊢
    by_cases hu : underOrEq tp k = true
    · have hcond : ((fun e : String × FNode => !underOrEq tp e.1) (k, v)) = false := by
        simp [hu]
      rw [List.filter_cons, if_neg (by simp [hcond]), ih]
      by_cases hq : underOrEq tp q = true
      · rw [if_pos hq, if_pos hq]
      · rw [if_neg hq, if_neg hq, lookupFS_cons, if_neg ?hne]
        case hne =>
          intro hkq
          exact hq (hkq ▸ hu)
    · have hcond : ((fun e : String × FNode => !underOrEq tp e.1) (k, v)) = true := by
        simp only [Bool.not_eq_true] at hu
        simp [hu]
      rw [List.filter_cons, if_pos hcond, lookupFS_cons]
      by_cases hkq : k = q
      · subst hkq
        rw [if_pos rfl, if_neg hu, lookupFS_cons, if_pos rfl]
      · rw [if_neg hkq, ih, lookupFS_cons]
        by_cases hq : underOrEq tp q = true
        · rw [if_pos hq, if_pos hq]
        · rw [if_neg hq, if_neg hq, if_neg hkq]

theorem mkdirAllR_ok_changes (m : Nat) :
    ∀ (rsegs : List (List Char)) (fs fs' : FS),
    mkdirAllR m fs rsegs = .ok fs' →
    ∀ q, lookupFS fs' q ≠ lookupFS fs q →
      (∃ rs, rs ≠ [] ∧ rs <:+ rsegs ∧ q = absOfRSegs rs) ∧
        lookupFS fs q = none ∧ lookupFS fs' q = some (.dir m 0) := by
  intro rsegs
  induction rsegs with
  | nil =>
    intro fs fs' h q hq
    unfold mkdirAllR at h
    have : fs = fs' := by
      cases h
      rfl
    subst this
    exact absurd rfl hq
  | cons s rest ih =>
    intro fs fs' h q hq
    unfold mkdirAllR at h
    simp only [] at h
    split at h
    · rename_i hl
      have : fs = fs' := by cases h; rfl
      subst this
      exact absurd rfl hq
    · cases h
    · rename_i hl
      split at h
      · cases h
      · rename_i fs1 hrec
        have hfs' : fs' = setFS fs1 (absOfRSegs (s :: rest)) (.dir m 0) := by
          cases h
          rfl
        subst hfs'
        rw [lookupFS_setFS] at hq ⊢
        by_cases hqp : q = absOfRSegs (s :: rest)
        · rw [if_pos hqp]
          refine ⟨⟨s :: rest, by simp, List.suffix_refl _, hqp⟩, ?_, rfl⟩
          rw [hqp]
          exact hl
        · rw [if_neg hqp] at hq ⊢
          obtain ⟨⟨rs, hne, hsuf, hrs⟩, h1, h2⟩ := ih fs fs1 hrec q hq
          exact ⟨⟨rs, hne, hsuf.trans (List.suffix_cons s rest), hrs⟩, h1, h2⟩

theorem mkdirAllR_preserves (m : Nat) (rsegs : List (List Char)) (fs fs' : FS)
    (h : mkdirAllR m fs rsegs = .ok fs') (q : String)
    (hex : lookupFS fs q ≠ none) : lookupFS fs' q = lookupFS fs q := by
  by_contra hne
  exact hex (mkdirAllR_ok_changes m rsegs fs fs' h q hne).2.1

theorem mkdirAll_ok_changes (m : Nat) (ss : List (List Char)) (fs fs' : FS)
    (hnice : NiceSegs ss)
    (h : mkdirAll m (absOfSegs ss) fs = .ok fs') :
    ∀ q, lookupFS fs' q ≠ lookupFS fs q →
      (∃ ps, ps ≠ [] ∧ ps <+: ss ∧ q = absOfSegs ps) ∧
        lookupFS fs q = none ∧ lookupFS fs' q = some (.dir m 0) := by
  unfold mkdirAll at h
  rw [segsOf_absOfSegs ss hnice] at h
  intro q hq
  obtain ⟨⟨rs, hne, hsuf, hrs⟩, h1, h2⟩ := mkdirAllR_ok_changes m ss.reverse fs fs' h q hq
  refine ⟨⟨rs.reverse, by simpa using hne, ?_, hrs⟩, h1, h2⟩
  rw [← List.reverse_reverse ss]
  exact List.reverse_prefix.mpr hsuf

theorem mkdirAll_preserves (m : Nat) (p : String) (fs fs' : FS)
    (h : mkdirAll m p fs = .ok fs') (q : String)
    (hex : lookupFS fs q ≠ none) : lookupFS fs' q = lookupFS fs q :=
  mkdirAllR_preserves m _ fs fs' h q hex

theorem chtimes_ok_changes (p : String) (mt : Int) (fs fs' : FS)
    (h : chtimes p mt fs = .ok fs') :
    ∀ q, lookupFS fs' q ≠ lookupFS fs q → q = p ∧ lookupFS fs' q ≠ none := by
  intro q hq
  unfold chtimes at h
  split at h
  · rename_i mode mtime hl
    have hfs' : fs' = setFS fs p (.dir mode mt) := by cases h; rfl
    subst hfs'
    rw [lookupFS_setFS] at hq ⊢
    by_cases hqp : q = p
    · rw [if_pos hqp]
      exact ⟨hqp, by simp⟩
    · rw [if_neg hqp] at hq
      exact absurd rfl hq
  · rename_i c mode mtime hl
    have hfs' : fs' = setFS fs p (.file c mode mt) := by cases h; rfl
    subst hfs'
    rw [lookupFS_setFS] at hq ⊢
    by_cases hqp : q = p
    · rw [if_pos hqp]
      exact ⟨hqp, by simp⟩
    · rw [if_neg hqp] at hq
      exact absurd rfl hq
  · rename_i t hl
    have hfs' : fs' = fs := by cases h; rfl
    subst hfs'
    exact absurd rfl hq
  · cases h

theorem reverse_tail_reverse (l : List (List Char)) :
    l.reverse.tail.reverse = l.dropLast := by
  induction l using List.reverseRecOn with
  | nil => rfl
  | append_singleton xs x ih => simp

theorem isWithin_abs_child_x (dss : List (List Char)) (hd : NiceSegs dss)
    (hne : dss ≠ []) :
    isPathWithinBoundary (absOfSegs dss ++ "/x") (absOfSegs dss) = true := by
  have hdata : (absOfSegs dss ++ "/x").data = (absOfSegs (dss ++ [['x']])).data := by
    show (absOfSegs dss).data ++ ['/', 'x'] = (absOfSegs (dss ++ [['x']])).data
    rw [absOfSegs_data, absOfSegs_data, joinSegs_append dss [['x']] hne (by simp)]
    rfl
  have hstr : absOfSegs dss ++ "/x" = absOfSegs (dss ++ [['x']]) := String.ext hdata
  rw [hstr]
  exact isWithin_absOfSegs_append dss [['x']] hd (by
    intro s hs
    simp at hs
    subst hs
    exact (by decide : NiceSeg ['x'])) hne (by simp)

theorem cleanData_abs_dotdot_x (dss : List (List Char)) (h : NiceSegs dss)
    (hne : dss ≠ []) :
    cleanData ((absOfSegs dss).data ++ ('/' :: '.' :: '.' :: '/' :: ['x'])) =
      '/' :: joinSegs (dss.dropLast ++ [['x']]) := by
  have hsegs : cleanSegsOf ((absOfSegs dss).data ++ ('/' :: '.' :: '.' :: '/' :: ['x'])) =
      dss ++ [['.', '.'], ['x']] := by
    unfold cleanSegsOf
    rw [absOfSegs_data, show ('/' :: joinSegs dss) ++ ('/' :: '.' :: '.' :: '/' :: ['x']) =
      ('/' :: joinSegs dss) ++ '/' :: ('.' :: '.' :: '/' :: ['x']) from rfl,
      splitOnSlash_append, List.filter_append]
    have h1 : (splitOnSlash ('/' :: joinSegs dss)).filter
        (fun t => (t != []) && (t != ['.'])) = dss := cleanSegsOf_abs dss h
    have h2 : (splitOnSlash ('.' :: '.' :: '/' :: ['x'])).filter
        (fun t => (t != []) && (t != ['.'])) = [['.', '.'], ['x']] := rfl
    rw [h1, h2]
  unfold cleanData
  rw [if_neg (by rw [absOfSegs_data]; simp)]
  have hr : (((absOfSegs dss).data ++ ('/' :: '.' :: '.' :: '/' :: ['x'])).head? ==
      some '/') = true := by
    rw [absOfSegs_data]
    rfl
  simp only [hr, hsegs, if_true]
  rw [List.foldl_append,
    foldl_cleanStep_nodots true dss (fun s hs => (h s hs).2.2.2) [], List.append_nil]
  cases hrev : dss.reverse with
  | nil => exact absurd (by simpa using congrArg List.reverse hrev) hne
  | cons a rest =>
    have ha : a ≠ ['.', '.'] := by
      have : a ∈ dss := by
        rw [← List.mem_reverse, hrev]
        simp
      exact (h a this).2.2.2
    have hstep : List.foldl (cleanStep true) (a :: rest) [['.', '.'], ['x']] =
        ['x'] :: rest := by
      show List.foldl (cleanStep true) (cleanStep true (a :: rest) ['.', '.']) [['x']] = _
      rw [show cleanStep true (a :: rest) ['.', '.'] =
        (if a = ['.', '.'] then ['.', '.'] :: a :: rest else rest) from rfl, if_neg ha]
      rfl
    rw [hstep]
    have hxr : (['x'] :: rest).reverse = rest.reverse ++ [['x']] := by simp
    rw [hxr]
    have hdl : rest.reverse = dss.dropLast := by
      rw [← reverse_tail_reverse dss, hrev]
      rfl
    rw [hdl]

theorem isWithin_abs_dotdot_x (dss : List (List Char)) (hd : NiceSegs dss)
    (hne : dss ≠ []) (hlast : dss.getLast? ≠ some ['x']) :
    isPathWithinBoundary (absOfSegs dss ++ "/../x") (absOfSegs dss) = false := by
  rw [isWithin_data]
  have hdata : (absOfSegs dss ++ "/../x").data =
      (absOfSegs dss).data ++ ('/' :: '.' :: '.' :: '/' :: ['x']) := rfl
  rw [hdata, cleanData_abs_dotdot_x dss hd hne, absOfSegs_data, cleanData_abs _ hd]
  have hnice2 : NiceSegs (dss.dropLast ++ [['x']]) := by
    intro s hs
    rcases List.mem_append.mp hs with h1 | h1
    · exact hd s (List.mem_of_mem_dropLast h1)
    · simp at h1
      subst h1
      decide
  by_contra hcon
  simp only [Bool.not_eq_false] at hcon
  have helim := isWithin_absOfSegs_elim (dss.dropLast ++ [['x']]) dss hnice2 hd (by
    rw [isWithin_data, absOfSegs_data, absOfSegs_data, cleanData_abs _ hnice2,
      cleanData_abs _ hd]
    exact hcon)
  rcases helim with h1 | ⟨_, ts, hts, _, h2⟩
  · apply hlast
    have hgl := congrArg List.getLast? h1
    rw [← hgl, List.getLast?_append]
    rfl
  · have hlen := congrArg List.length h2
    rw [List.length_append, List.length_append, List.length_dropLast] at hlen
    simp at hlen
    have hdp : 1 ≤ dss.length := by
      cases dss with
      | nil => exact absurd rfl hne
      | cons _ _ => simp
    have : ts.length = 0 := by omega
    exact hts (List.length_eq_zero.mp this)

/-- C2: the Path Boundary Guard claim is FALSE as stated: it asserts the
result is false whenever path or root is the empty string, but
`isPathWithinBoundary "" ""` cleans both arguments to `.` and returns
true. -/
theorem C2_counterexample : isPathWithinBoundary "" "" = true := by decide

/-- C2 (amended): `isPathWithinBoundary` returns true iff the cleaned path
equals the cleaned root or extends it across a separator; it accepts
`(root, root)` for every root; for every cleaned absolute root,
`root + "/x"` is within `root`, and `root + "/../x"` is not (provided the
root's own last segment is not `x`); the substring-root example is
rejected; empty strings are normalized to `.` rather than rejected, so
both arguments empty yields true (not false, as claimed), while an empty
side against a non-dot other side yields false. -/
theorem C2_boundary_guard_amended :
    (∀ path dir : String, isPathWithinBoundary path dir = true ↔
      (clean path = clean dir ∨
        ∃ r, (clean path).data = (clean dir).data ++ '/' :: r)) ∧
    (∀ root : String, isPathWithinBoundary root root = true) ∧
    (∀ dss, NiceSegs dss → dss ≠ [] →
      isPathWithinBoundary (absOfSegs dss ++ "/x") (absOfSegs dss) = true) ∧
    (∀ dss, NiceSegs dss → dss ≠ [] → dss.getLast? ≠ some ['x'] →
      isPathWithinBoundary (absOfSegs dss ++ "/../x") (absOfSegs dss) = false) ∧
    isPathWithinBoundary "" "" = true ∧
    isPathWithinBoundary "" "/path/to/dir" = false ∧
    isPathWithinBoundary "/path/to/dir" "" = false ∧
    isPathWithinBoundary "/path/to/directory" "/path/to/dir" = false := by
  refine ⟨?_, isWithin_refl, isWithin_abs_child_x, isWithin_abs_dotdot_x,
    by decide, by decide, by decide, by decide⟩
  intro path dir
  rw [isWithin_data]
  constructor
  · intro h
    rcases Bool.or_eq_true_iff.mp h with h1 | h1
    · right
      rw [List.isPrefixOf_iff_prefix] at h1
      obtain ⟨u, hu⟩ := h1
      refine ⟨u, ?_⟩
      show cleanData path.data = cleanData dir.data ++ '/' :: u
      rw [← hu]
      simp
    · left
      exact String.ext (eq_of_beq h1)
  · intro h
    rcases h with h1 | ⟨r, hr⟩
    · apply Bool.or_eq_true_iff.mpr
      right
      exact beq_iff_eq.mpr (congrArg String.data h1)
    · apply Bool.or_eq_true_iff.mpr
      left
      rw [List.isPrefixOf_iff_prefix]
      have hr2 : cleanData path.data = cleanData dir.data ++ '/' :: r := hr
      exact ⟨r, by rw [hr2]; simp⟩

/-- Witness for the amended C2 theorem at a concrete root. -/
theorem C2_boundary_guard_amended_witness :
    isPathWithinBoundary (absOfSegs [['d']] ++ "/x") (absOfSegs [['d']]) = true ∧
    isPathWithinBoundary (absOfSegs [['d']] ++ "/../x") (absOfSegs [['d']]) = false ∧
    isPathWithinBoundary "a/b" "a" = true :=
  ⟨C2_boundary_guard_amended.2.2.1 [['d']] (by decide) (by decide),
   C2_boundary_guard_amended.2.2.2.1 [['d']] (by decide) (by decide) (by decide),
   (C2_boundary_guard_amended.1 "a/b" "a").mpr (Or.inr ⟨['b'], by decide⟩)⟩

/-- C5: for every regular-file entry, the bytes `copyFileContent` streams
into the tar container never exceed the size recorded in the header when it
was built from the walk-time file state — the copy-time `LimitReader` uses
a fresh `Stat`, but the tar writer enforces the header budget (truncating
and erroring with `ErrWriteTooLong`), so the container receives at most the
declared bytes even when the file grew in between; when the file did not
grow, the content is streamed in full without error. -/
theorem C5_content_bounded_by_header :
    ∀ (walkContent copyContent : List Nat) (mode : Nat) (mt : Int),
      (copyFileContent copyContent
          (createHeader (.file walkContent mode mt)).size).1.length ≤
        (createHeader (.file walkContent mode mt)).size ∧
      (copyContent.length ≤ walkContent.length →
        copyFileContent copyContent (createHeader (.file walkContent mode mt)).size =
          (copyContent, none)) := by
  intro walkContent copyContent mode mt
  have hsize : (createHeader (.file walkContent mode mt)).size = walkContent.length := rfl
  constructor
  · unfold copyFileContent tarWrite
    simp only []
    rw [List.take_length]
    split
    · simp [List.length_take]
    · rename_i hle
      simp only [Nat.not_lt] at hle
      simpa using hle
  · intro hgrow
    unfold copyFileContent tarWrite
    simp only []
    rw [List.take_length, hsize, if_neg (by omega)]

/-- Witness for C5 at a concrete grown and non-grown file. -/
theorem C5_content_bounded_by_header_witness :
    (copyFileContent [9, 9, 9] (createHeader (.file [1, 2] 420 0)).size).1.length ≤
      (createHeader (.file [1, 2] 420 0)).size ∧
    copyFileContent [7] (createHeader (.file [7, 8] 420 0)).size = ([7], none) :=
  ⟨(C5_content_bounded_by_header [1, 2] [9, 9, 9] 420 0).1,
   (C5_content_bounded_by_header [7, 8] [7] 420 0).2 (by decide)⟩

theorem collectInfos_error (env : String → Option (String × Bool)) :
    ∀ (paths : List String), (∃ p ∈ paths, env p = none) →
    collectInfos env paths = .error .pathResolution := by
  intro paths
  induction paths with
  | nil => rintro ⟨p, hp, _⟩; cases hp
  | cons q rest ih =>
    rintro ⟨p, hp, hnone⟩
    unfold collectInfos
    rcases List.mem_cons.mp hp with h | h
    · subst h
      rw [hnone]
    · cases henv : env q with
      | none => rfl
      | some v =>
        rw [ih ⟨p, h, hnone⟩]

/-- C7: the claim is FALSE as stated: for a one-element list the filter
returns the list unchanged before any resolution is attempted, so an
unresolvable single path does not produce a `PathResolutionError` (here the
environment resolves nothing at all, yet the call succeeds). -/
theorem C7_counterexample :
    filterRedundantPaths (fun _ => none) ["x"] = .ok ["x"] := rfl

/-- C7 (amended): for input lists of at least two paths, an unresolvable
path makes `filterRedundantPaths` fail with a `PathResolutionError`; lists
of at most one element are returned unchanged without any resolution. -/
theorem C7_unresolvable_path_amended :
    (∀ (env : String → Option (String × Bool)) (paths : List String),
      2 ≤ paths.length → (∃ p ∈ paths, env p = none) →
      filterRedundantPaths env paths = .error .pathResolution) ∧
    (∀ (env : String → Option (String × Bool)) (paths : List String),
      paths.length ≤ 1 → filterRedundantPaths env paths = .ok paths) := by
  constructor
  · intro env paths hlen hex
    unfold filterRedundantPaths
    rw [if_neg (by omega), collectInfos_error env paths hex]
  · intro env paths hlen
    unfold filterRedundantPaths
    rw [if_pos hlen]

/-- Witness for the amended C7 theorem. -/
theorem C7_unresolvable_path_amended_witness :
    filterRedundantPaths (fun _ => none) ["a", "b"] = .error .pathResolution ∧
    filterRedundantPaths (fun _ => none) ["a"] = .ok ["a"] :=
  ⟨C7_unresolvable_path_amended.1 (fun _ => none) ["a", "b"] (by decide)
      ⟨"a", by simp, rfl⟩,
   C7_unresolvable_path_amended.2 (fun _ => none) ["a"] (by decide)⟩

/-- C8: the claim is FALSE as stated: `NewArchiver` performs no numeric
validation of the compression level, so construction succeeds even for the
out-of-range level 42. -/
theorem C8_counterexample :
    NewArchiver "tar.gz" [WithCompressionLevel 42] = .ok ⟨42, false⟩ := rfl

/-- C8 (amended): `NewArchiver` rejects every format other than `tar.gz`
with an unsupported-format error and otherwise stores the options without
validating the compression level; an out-of-range level is first rejected
when `Archive` opens the gzip stream (after source filtering), not at
construction. -/
theorem C8_construction_amended :
    (∀ (format : String) (opts : List (Options → Options)), format ≠ "tar.gz" →
      NewArchiver format opts = .error .unsupportedFormat) ∧
    (∀ (level : Int) (preserve : Bool),
      NewArchiver "tar.gz" [WithCompressionLevel level, WithPreservePath preserve] =
        .ok ⟨level, preserve⟩) ∧
    (∀ (arch : TarGzipArchiver) (env : String → Option (String × Bool))
        (sources : List (String × FTree)) (f : List String),
      filterRedundantPaths env (sources.map (fun e => e.1)) = .ok f →
      (arch.CompressionLevel < -2 ∨ 9 < arch.CompressionLevel) →
      archive arch env sources = .error .ioError) := by
  refine ⟨?_, ?_, ?_⟩
  · intro format opts hne
    unfold NewArchiver
    simp only []
    rw [if_neg hne]
  · intro level preserve
    rfl
  · intro arch env sources f hfilter hbad
    unfold archive
    rw [hfilter]
    unfold gzipNewWriterLevel
    rw [if_pos hbad]

/-- Witness for the amended C8 theorem. -/
theorem C8_construction_amended_witness :
    NewArchiver "zip" [] = .error .unsupportedFormat ∧
    archive ⟨42, false⟩ (fun _ => none) [] = .error .ioError :=
  ⟨C8_construction_amended.1 "zip" [] (by decide),
   C8_construction_amended.2.2 ⟨42, false⟩ (fun _ => none) [] [] rfl
     (Or.inr (by decide))⟩

theorem mem_insertByLen (x y : PathInfo) (l : List PathInfo) :
    y ∈ insertByLen x l ↔ y = x ∨ y ∈ l := by
  induction l with
  | nil => simp [insertByLen]
  | cons a rest ih =>
    unfold insertByLen
    split
    · rw [List.mem_cons, ih, List.mem_cons]
      tauto
    · simp only [List.mem_cons]

theorem mem_sortByLen (y : PathInfo) (l : List PathInfo) :
    y ∈ sortByLen l ↔ y ∈ l := by
  induction l with
  | nil => simp [sortByLen]
  | cons a rest ih =>
    unfold sortByLen
    rw [mem_insertByLen]
    simp [ih]

theorem insertByLen_pairwise (x : PathInfo) (l : List PathInfo)
    (h : l.Pairwise infoLE) : (insertByLen x l).Pairwise infoLE := by
  induction l with
  | nil =>
    unfold insertByLen
    simp [List.pairwise_cons]
  | cons a rest ih =>
    unfold insertByLen
    rw [List.pairwise_cons] at h
    split
    · rename_i hlt
      rw [List.pairwise_cons]
      refine ⟨?_, ih h.2⟩
      intro y hy
      rcases (mem_insertByLen x y rest).mp hy with h1 | h1
      · rw [h1]
        exact Nat.le_of_lt hlt
      · exact h.1 y h1
    · rename_i hge
      simp only [Nat.not_lt] at hge
      rw [List.pairwise_cons]
      refine ⟨?_, List.pairwise_cons.mpr h⟩
      intro y hy
      rcases List.mem_cons.mp hy with h1 | h1
      · rw [h1]
        exact hge
      · exact Nat.le_trans hge (h.1 y h1)

theorem sortByLen_pairwise (l : List PathInfo) : (sortByLen l).Pairwise infoLE := by
  induction l with
  | nil => simp [sortByLen]
  | cons a rest ih => exact insertByLen_pairwise a (sortByLen rest) ih

theorem collectInfos_ok_mem (env : String → Option (String × Bool)) :
    ∀ (paths : List String) (infos : List PathInfo),
    collectInfos env paths = .ok infos →
    ∀ info ∈ infos, info.original ∈ paths ∧
      ∃ a d, env info.original = some (a, d) ∧
        info.abs = absWithSlash a d ∧ info.isDir = d := by
  intro paths
  induction paths with
  | nil =>
    intro infos h info hinfo
    unfold collectInfos at h
    cases h
    cases hinfo
  | cons p rest ih =>
    intro infos h info hinfo
    unfold collectInfos at h
    cases henv : env p with
    | none =>
      rw [henv] at h
      cases h
    | some pair =>
      obtain ⟨a, d⟩ := pair
      rw [henv] at h
      simp only [] at h
      cases hrec : collectInfos env rest with
      | error e =>
        rw [hrec] at h
        cases h
      | ok tailInfos =>
        rw [hrec] at h
        have hinfos : infos = ⟨p, absWithSlash a d, d⟩ :: tailInfos := by
          cases h
          rfl
        subst hinfos
        rcases List.mem_cons.mp hinfo with h1 | h1
        · subst h1
          exact ⟨by simp, a, d, henv, rfl, rfl⟩
        · obtain ⟨hmem, ha, hd, henv2, habs, hdir⟩ := ih tailInfos hrec info h1
          exact ⟨List.mem_cons_of_mem p hmem, ha, hd, henv2, habs, hdir⟩

theorem collectInfos_ok_mem_rev (env : String → Option (String × Bool)) :
    ∀ (paths : List String) (infos : List PathInfo),
    collectInfos env paths = .ok infos →
    ∀ p ∈ paths, ∃ info ∈ infos, info.original = p := by
  intro paths
  induction paths with
  | nil =>
    intro infos h p hp
    cases hp
  | cons q rest ih =>
    intro infos h p hp
    unfold collectInfos at h
    cases henv : env q with
    | none =>
      rw [henv] at h
      cases h
    | some pair =>
      obtain ⟨a, d⟩ := pair
      rw [henv] at h
      simp only [] at h
      cases hrec : collectInfos env rest with
      | error e =>
        rw [hrec] at h
        cases h
      | ok tailInfos =>
        rw [hrec] at h
        have hinfos : infos = ⟨q, absWithSlash a d, d⟩ :: tailInfos := by
          cases h
          rfl
        subst hinfos
        rcases List.mem_cons.mp hp with h1 | h1
        · subst h1
          exact ⟨⟨p, absWithSlash a d, d⟩, by simp, rfl⟩
        · obtain ⟨info, hmem, horig⟩ := ih tailInfos hrec p h1
          exact ⟨info, List.mem_cons_of_mem _ hmem, horig⟩

theorem filterSorted_sound :
    ∀ (l : List PathInfo) (seen : List PathInfo) (x : String),
    x ∈ filterSorted seen l →
    ∃ (i : Nat) (hi : i < l.length), (l.get ⟨i, hi⟩).original = x ∧
      isRedundant (seen ++ l.take i) (l.get ⟨i, hi⟩) = false := by
  intro l
  induction l with
  | nil =>
    intro seen x hx
    cases hx
  | cons info rest ih =>
    intro seen x hx
    unfold filterSorted at hx
    split at hx
    · rename_i hred
      obtain ⟨j, hj, horig, hredj⟩ := ih (seen ++ [info]) x hx
      refine ⟨j + 1, by simpa using hj, horig, ?_⟩
      rw [List.take_succ_cons]
      rw [show seen ++ info :: rest.take j = (seen ++ [info]) ++ rest.take j by simp]
      exact hredj
    · rename_i hred
      rcases List.mem_cons.mp hx with h1 | h1
      · refine ⟨0, by simp, h1.symm, ?_⟩
        simp only [List.take_zero, List.append_nil, List.get_cons_zero]
        simpa using hred
      · obtain ⟨j, hj, horig, hredj⟩ := ih (seen ++ [info]) x h1
        refine ⟨j + 1, by simpa using hj, horig, ?_⟩
        rw [List.take_succ_cons]
        rw [show seen ++ info :: rest.take j = (seen ++ [info]) ++ rest.take j by simp]
        exact hredj

theorem filterSorted_complete :
    ∀ (l : List PathInfo) (seen : List PathInfo) (i : Nat) (hi : i < l.length),
    isRedundant (seen ++ l.take i) (l.get ⟨i, hi⟩) = false →
    (l.get ⟨i, hi⟩).original ∈ filterSorted seen l := by
  intro l
  induction l with
  | nil =>
    intro seen i hi
    simp at hi
  | cons info rest ih =>
    intro seen i hi hred
    unfold filterSorted
    cases i with
    | zero =>
      have hred0 : isRedundant seen info = false := by
        simpa using hred
      rw [if_neg (by simp [hred0])]
      exact List.mem_cons_self _ _
    | succ j =>
      rw [List.take_succ_cons,
        show seen ++ info :: rest.take j = (seen ++ [info]) ++ rest.take j by simp] at hred
      have hmem := ih (seen ++ [info]) j (by simpa using hi) hred
      split
      · exact hmem
      · exact List.mem_cons_of_mem _ hmem

theorem get_mem_take {α : Type} (l : List α) (i j : Nat) (hi : i < l.length)
    (hij : i < j) : l.get ⟨i, hi⟩ ∈ l.take j := by
  have h1 : i < (l.take j).length := by
    rw [List.length_take]
    omega
  have h2 : (l.take j).get ⟨i, h1⟩ = l.get ⟨i, hi⟩ := by
    simp [List.getElem_take']
  rw [← h2]
  exact List.get_mem _ _ _

theorem absWithSlash_dir_last (a : String) :
    (absWithSlash a true).data.getLast? = some '/' := by
  unfold absWithSlash
  by_cases h : (a.data.getLast? == some '/') = true
  · simp only [h, Bool.not_true, Bool.and_false, Bool.false_eq_true, if_false]
    exact eq_of_beq h
  · simp only [Bool.not_eq_true] at h
    simp only [h, Bool.not_false, Bool.and_true, if_true]
    show (a.data ++ ['/']).getLast? = some '/'
    rw [List.getLast?_concat]

theorem eq_of_two_mem_short (l : List String) (p q : String) (hlen : l.length ≤ 1)
    (hp : p ∈ l) (hq : q ∈ l) : p = q := by
  cases l with
  | nil => cases hp
  | cons a rest =>
    cases rest with
    | nil =>
      simp at hp hq
      rw [hp, hq]
    | cons b rest2 => simp at hlen

/-- C9: the Redundant Path Filter's output never contains a path covered
by a directory that is also in the output (no output path is a descendant
of another output path); a dropped path is always dropped because some
directory in the list covers it, so non-directories never cause a drop;
and on the spec's example `[dirA, dirA/fileX, dirB]` the output is exactly
`[dirA, dirB]`.  The hypothesis `hfile` states the file-system fact that
`filepath.Abs` never reports a trailing separator for a non-directory. -/
theorem C9_filter_output_minimal :
    (∀ (env : String → Option (String × Bool)) (paths result : List String),
      filterRedundantPaths env paths = .ok result →
      (∀ x ∈ paths, ∀ a, env x = some (a, false) → a.data.getLast? ≠ some '/') →
      ∀ p ∈ result, ∀ q ∈ result, p ≠ q →
      ∀ ap dp aq, env p = some (ap, dp) → env q = some (aq, true) →
      ¬((absWithSlash aq true).data.isPrefixOf (absWithSlash ap dp).data = true)) ∧
    (∀ (env : String → Option (String × Bool)) (paths result : List String),
      filterRedundantPaths env paths = .ok result →
      ∀ p ∈ paths, ∀ ap dp, env p = some (ap, dp) → p ∉ result →
      ∃ q ∈ paths, ∃ aq, env q = some (aq, true) ∧
        (absWithSlash aq true).data.isPrefixOf (absWithSlash ap dp).data = true) ∧
    filterRedundantPaths envC9 ["dirA", "dirA/fileX", "dirB"] = .ok ["dirA", "dirB"] := by
  refine ⟨?_, ?_, rfl⟩
  · intro env paths result hok hfile p hp q hq hpq ap dp aq henvp henvq hcov
    unfold filterRedundantPaths at hok
    split at hok
    · rename_i hlen
      have hres : result = paths := by cases hok; rfl
      subst hres
      exact hpq (eq_of_two_mem_short result p q hlen hp hq)
    · split at hok
      · cases hok
      · rename_i infos hcollect
        have hres : result = filterSorted [] (sortByLen infos) := by
          cases hok
          rfl
        obtain ⟨i, hilt, hpi, hredi⟩ := filterSorted_sound (sortByLen infos) [] p (hres ▸ hp)
        obtain ⟨j, hjlt, hqj, hredj⟩ := filterSorted_sound (sortByLen infos) [] q (hres ▸ hq)
        simp only [List.nil_append] at hredi hredj
        obtain ⟨hporig, a1, d1, henv1, habs1, hdir1⟩ :=
          collectInfos_ok_mem env paths infos hcollect _
            ((mem_sortByLen _ infos).mp (List.get_mem _ i hilt))
        obtain ⟨hqorig, a2, d2, henv2, habs2, hdir2⟩ :=
          collectInfos_ok_mem env paths infos hcollect _
            ((mem_sortByLen _ infos).mp (List.get_mem _ j hjlt))
        rw [hpi, henvp] at henv1
        rw [hqj, henvq] at henv2
        rw [hpi] at hporig
        have hpair1 := Option.some.inj henv1
        have hpair2 := Option.some.inj henv2
        have ha1 : a1 = ap := (Prod.ext_iff.mp hpair1).1.symm
        have hd1 : d1 = dp := (Prod.ext_iff.mp hpair1).2.symm
        have ha2 : a2 = aq := (Prod.ext_iff.mp hpair2).1.symm
        have hd2 : d2 = true := (Prod.ext_iff.mp hpair2).2.symm
        rw [ha1, hd1] at habs1
        rw [ha2, hd2] at habs2
        rw [hd1] at hdir1
        rw [hd2] at hdir2
        rcases Nat.lt_trichotomy i j with hij | hij | hij
        · have hpw := sortByLen_pairwise infos
          rw [List.pairwise_iff_get] at hpw
          have hle := hpw ⟨i, hilt⟩ ⟨j, hjlt⟩ (by simpa using hij)
          unfold infoLE at hle
          rw [habs1, habs2] at hle
          have hprefix := List.isPrefixOf_iff_prefix.mp hcov
          have hlen2 := hprefix.length_le
          have heqabs : (absWithSlash aq true).data = (absWithSlash ap dp).data :=
            List.IsPrefix.eq_of_length hprefix (by omega)
          cases dp with
          | false =>
            apply hfile p hporig ap henvp
            have hlast := absWithSlash_dir_last aq
            rw [heqabs] at hlast
            exact hlast
          | true =>
            have hcovred : isRedundant ((sortByLen infos).take j)
                ((sortByLen infos).get ⟨j, hjlt⟩) = true := by
              unfold isRedundant
              rw [List.any_eq_true]
              refine ⟨(sortByLen infos).get ⟨i, hilt⟩,
                get_mem_take (sortByLen infos) i j hilt hij, ?_⟩
              rw [Bool.and_eq_true]
              refine ⟨hdir1, ?_⟩
              rw [habs1, habs2, List.isPrefixOf_iff_prefix]
              rw [heqabs]
            rw [hcovred] at hredj
            cases hredj
        · have hpq2 : p = q := by
            subst hij
            rw [← hpi, ← hqj]
          exact hpq hpq2
        · have hcovred : isRedundant ((sortByLen infos).take i)
              ((sortByLen infos).get ⟨i, hilt⟩) = true := by
            unfold isRedundant
            rw [List.any_eq_true]
            refine ⟨(sortByLen infos).get ⟨j, hjlt⟩,
              get_mem_take (sortByLen infos) j i hjlt hij, ?_⟩
            rw [Bool.and_eq_true]
            refine ⟨hdir2, ?_⟩
            rw [habs2, habs1]
            exact hcov
          rw [hcovred] at hredi
          cases hredi
  · intro env paths result hok p hp ap dp henvp hnot
    unfold filterRedundantPaths at hok
    split at hok
    · have hres : result = paths := by cases hok; rfl
      exact absurd (hres ▸ hp) hnot
    · split at hok
      · cases hok
      · rename_i infos hcollect
        have hres : result = filterSorted [] (sortByLen infos) := by
          cases hok
          rfl
        obtain ⟨info, hinfomem, horig⟩ :=
          collectInfos_ok_mem_rev env paths infos hcollect p hp
        have hsortmem : info ∈ sortByLen infos := (mem_sortByLen info infos).mpr hinfomem
        obtain ⟨n, hn⟩ := List.mem_iff_get.mp hsortmem
        by_cases hred :
            isRedundant ((sortByLen infos).take n.1) ((sortByLen infos).get n) = true
        · unfold isRedundant at hred
          rw [List.any_eq_true] at hred
          obtain ⟨pr, hprmem, hpr⟩ := hred
          rw [Bool.and_eq_true] at hpr
          have hprinfos : pr ∈ infos :=
            (mem_sortByLen pr infos).mp (List.take_subset _ _ hprmem)
          obtain ⟨hprpaths, aq, dq, henvq, habsq, hdirq⟩ :=
            collectInfos_ok_mem env paths infos hcollect pr hprinfos
          have hdq : dq = true := by
            rw [← hdirq]
            exact hpr.1
          obtain ⟨_, a1, d1, henv1, habs1, _⟩ :=
            collectInfos_ok_mem env paths infos hcollect info hinfomem
          rw [horig, henvp] at henv1
          have hpair1 := Option.some.inj henv1
          have ha1 : a1 = ap := (Prod.ext_iff.mp hpair1).1.symm
          have hd1 : d1 = dp := (Prod.ext_iff.mp hpair1).2.symm
          refine ⟨pr.original, hprpaths, aq, by rw [← hdq]; exact henvq, ?_⟩
          have h2 := hpr.2
          rw [hn, habs1, ha1, hd1, habsq, hdq] at h2
          exact h2
        · simp only [Bool.not_eq_true] at hred
          exfalso
          apply hnot
          have hmem := filterSorted_complete (sortByLen infos) [] n.1 n.2 (by
            simpa using hred)
          rw [hres]
          have hget : ((sortByLen infos).get ⟨n.1, n.2⟩).original = p := by
            rw [show (⟨n.1, n.2⟩ : Fin (sortByLen infos).length) = n from rfl, hn, horig]
          rw [← hget]
          exact hmem

theorem envC9_file_ok :
    ∀ x ∈ ["dirA", "dirA/fileX", "dirB"], ∀ a, envC9 x = some (a, false) →
      a.data.getLast? ≠ some '/' := by
  intro x hx a henv
  simp only [List.mem_cons, List.mem_singleton] at hx
  rcases hx with rfl | rfl | rfl | hfalse
  · have hsnd := congrArg Prod.snd (Option.some.inj henv)
    exact Bool.noConfusion hsnd
  · have hfst : "/r/dirA/fileX" = a := congrArg Prod.fst (Option.some.inj henv)
    rw [← hfst]
    decide
  · have hsnd := congrArg Prod.snd (Option.some.inj henv)
    exact Bool.noConfusion hsnd
  · cases hfalse

/-- Witness for C9 at the spec's concrete example. -/
theorem C9_filter_output_minimal_witness :
    ¬((absWithSlash "/r/dirA" true).data.isPrefixOf
        (absWithSlash "/r/dirB" true).data = true) ∧
    ∃ q ∈ ["dirA", "dirA/fileX", "dirB"], ∃ aq, envC9 q = some (aq, true) ∧
      (absWithSlash aq true).data.isPrefixOf
        (absWithSlash "/r/dirA/fileX" false).data = true :=
  ⟨C9_filter_output_minimal.1 envC9 ["dirA", "dirA/fileX", "dirB"] ["dirA", "dirB"] rfl
      envC9_file_ok "dirB" (by decide) "dirA" (by decide) (by decide)
      "/r/dirB" true "/r/dirA" rfl rfl,
   C9_filter_output_minimal.2.1 envC9 ["dirA", "dirA/fileX", "dirB"] ["dirA", "dirB"] rfl
      "dirA/fileX" (by decide) "/r/dirA/fileX" false rfl (by decide)⟩

/-- C3: symlink handling of `Unarchive`: (a) an absolute link target fails
with AbsoluteSymlink; (b) a link target that, resolved against the target
path's parent directory and cleaned, leaves the destination root fails
with SymlinkEscape; (c) a target resolving to the symlink's own path fails
with CircularSymlink; (d) the chain walk fails with ChainTooDeep at depth
10; (e) the two-entry cycle link1 -> link2, link2 -> link1 fails with
CircularSymlink; (f) eleven nested symlinks make the final entry's chain
walk exceed the depth bound and fail with ChainTooDeep (while ten are
accepted) — every hop of that chain stays inside the root, so only the
composed chain trips the defence. -/
theorem C3_symlink_validation :
    (∀ (h : THeader) (tp destAbs : String) (st : XState) (fs1 : FS),
      mkdirAll 493 (goDir tp) st.fs = .ok fs1 →
      isAbs h.linkname = true →
      processSymlink h tp destAbs st = (some .absoluteSymlink, ⟨fs1, st.links⟩)) ∧
    (∀ (h : THeader) (tp destAbs : String) (st : XState) (fs1 : FS),
      mkdirAll 493 (goDir tp) st.fs = .ok fs1 →
      isAbs h.linkname = false →
      isPathWithinBoundary (clean (joinPath (goDir tp) h.linkname)) destAbs = false →
      processSymlink h tp destAbs st = (some .symlinkEscape, ⟨fs1, st.links⟩)) ∧
    (∀ (h : THeader) (tp destAbs : String) (st : XState) (fs1 : FS),
      mkdirAll 493 (goDir tp) st.fs = .ok fs1 →
      isAbs h.linkname = false →
      isPathWithinBoundary (clean (joinPath (goDir tp) h.linkname)) destAbs = true →
      clean (joinPath (goDir tp) h.linkname) = tp →
      processSymlink h tp destAbs st = (some .circularSymlink, ⟨fs1, st.links⟩)) ∧
    (∀ (links : List (String × String)) (orig tp destAbs : String) (depth : Nat),
      10 ≤ depth →
      checkSymlinkChain links orig tp destAbs depth = some .chainTooDeep) ∧
    (unarchive [symEntry "link1" "link2", symEntry "link2" "link1"] "/d" fsRoot).1 =
      some .circularSymlink ∧
    (unarchive chain11 "/d" fsRoot).1 = some .chainTooDeep ∧
    (unarchive chain10 "/d" fsRoot).1 = none := by
  refine ⟨?_, ?_, ?_, ?_, by decide, by decide, by decide⟩
  · intro h tp destAbs st fs1 hmk habs
    unfold processSymlink
    rw [hmk]
    simp only [habs, if_true]
  · intro h tp destAbs st fs1 hmk habs hout
    unfold processSymlink
    rw [hmk]
    simp only [habs, Bool.false_eq_true, if_false, hout, Bool.not_false, if_true]
  · intro h tp destAbs st fs1 hmk habs hin hself
    unfold processSymlink
    rw [hmk]
    have hin2 : isPathWithinBoundary tp destAbs = true := by
      rw [← hself]
      exact hin
    simp only [habs, Bool.false_eq_true, if_false, hself, hin2, Bool.not_true,
      beq_self_eq_true, if_true]
  · intro links orig tp destAbs depth hdepth
    unfold checkSymlinkChain
    rw [show 10 - depth = 0 from by omega]
    rfl

/-- Witness for C3 at concrete symlink entries. -/
theorem C3_symlink_validation_witness :
    processSymlink ⟨"s", .symlink, "/etc/passwd", 0, 0, 0⟩ "/d/s" "/d" ⟨fsRoot, []⟩ =
      (some .absoluteSymlink, ⟨fsRoot, []⟩) ∧
    processSymlink ⟨"s", .symlink, "../../out", 0, 0, 0⟩ "/d/s" "/d" ⟨fsRoot, []⟩ =
      (some .symlinkEscape, ⟨fsRoot, []⟩) ∧
    processSymlink ⟨"s", .symlink, "s", 0, 0, 0⟩ "/d/s" "/d" ⟨fsRoot, []⟩ =
      (some .circularSymlink, ⟨fsRoot, []⟩) ∧
    checkSymlinkChain [] "/d/a" "/d/b" "/d" 10 = some .chainTooDeep :=
  ⟨C3_symlink_validation.1 _ "/d/s" "/d" ⟨fsRoot, []⟩ fsRoot rfl rfl,
   C3_symlink_validation.2.1 _ "/d/s" "/d" ⟨fsRoot, []⟩ fsRoot rfl rfl rfl,
   C3_symlink_validation.2.2.1 _ "/d/s" "/d" ⟨fsRoot, []⟩ fsRoot rfl rfl rfl rfl,
   C3_symlink_validation.2.2.2.1 [] "/d/a" "/d/b" "/d" 10 (by decide)⟩

/-- C6: conflict/overwrite asymmetry of the extraction handlers: a
regular/special-file entry whose (guarded) target path is already occupied
fails with FileConflict and leaves the occupant untouched, while a symlink
or hard-link entry whose target path is occupied removes whatever is there
(and everything under it) and creates the link in its place. -/
theorem C6_conflict_overwrite_asymmetry :
    (∀ (path : String) (h : THeader) (content : List Nat) (fs fs1 : FS) (n : FNode),
      mkdirAll 493 (goDir path) fs = .ok fs1 →
      lookupFS fs path = some n →
      processFile path h content fs = (some .fileConflict, fs1) ∧
        lookupFS fs1 path = some n) ∧
    (∀ (h : THeader) (tp destAbs : String) (st : XState) (fs1 : FS) (n0 : FNode),
      mkdirAll 493 (goDir tp) st.fs = .ok fs1 →
      lookupFS st.fs tp = some n0 →
      isAbs h.linkname = false →
      isPathWithinBoundary (clean (joinPath (goDir tp) h.linkname)) destAbs = true →
      clean (joinPath (goDir tp) h.linkname) ≠ tp →
      lookupLinks st.links (clean (joinPath (goDir tp) h.linkname)) = none →
      processSymlink h tp destAbs st =
        (none, ⟨setFS (removeAllFS fs1 tp) tp (.symlink h.linkname),
          (tp, h.linkname) :: st.links⟩) ∧
        lookupFS (setFS (removeAllFS fs1 tp) tp (.symlink h.linkname)) tp =
          some (.symlink h.linkname)) ∧
    (∀ (h : THeader) (tp destAbs : String) (fs fs1 : FS) (n0 : FNode)
        (c : List Nat) (m : Nat) (mt : Int),
      isPathWithinBoundary (joinPath destAbs h.linkname) destAbs = true →
      mkdirAll 493 (goDir tp) fs = .ok fs1 →
      lookupFS fs tp = some n0 →
      lookupFS (removeAllFS fs1 tp) (joinPath destAbs h.linkname) =
        some (.file c m mt) →
      processHardLink h tp destAbs fs =
        (none, setFS (removeAllFS fs1 tp) tp (.file c m mt)) ∧
        lookupFS (setFS (removeAllFS fs1 tp) tp (.file c m mt)) tp =
          some (.file c m mt)) := by
  refine ⟨?_, ?_, ?_⟩
  · intro path h content fs fs1 n hmk hocc
    have hpres : lookupFS fs1 path = some n := by
      rw [mkdirAll_preserves 493 (goDir path) fs fs1 hmk path (by rw [hocc]; simp)]
      exact hocc
    refine ⟨?_, hpres⟩
    unfold processFile
    rw [hmk]
    simp only [hpres]
  · intro h tp destAbs st fs1 n0 hmk hocc habs hin hne hnolink
    have hchain : checkSymlinkChain st.links tp
        (clean (joinPath (goDir tp) h.linkname)) destAbs 0 = none := by
      unfold checkSymlinkChain checkSymlinkChainAux
      rw [hnolink]
    refine ⟨?_, by rw [lookupFS_setFS]; simp⟩
    unfold processSymlink
    rw [hmk]
    simp only [habs, Bool.false_eq_true, if_false, hin, Bool.not_true, hnolink,
      hchain]
    rw [if_neg (by simpa using hne)]
  · intro h tp destAbs fs fs1 n0 c m mt hin hmk hocc hlink
    refine ⟨?_, by rw [lookupFS_setFS]; simp⟩
    unfold processHardLink
    simp only [hin, Bool.not_true, Bool.false_eq_true, if_false, hmk, hlink]

/-- Witness for C6 on a small concrete file system. -/
theorem C6_conflict_overwrite_asymmetry_witness :
    processFile "/d/f" ⟨"f", .reg, "", 1, 420, 5⟩ [9]
        [("/d/f", .file [1] 420 0), ("/d", .dir 493 0)] =
      (some .fileConflict, [("/d/f", .file [1] 420 0), ("/d", .dir 493 0)]) ∧
    (processSymlink ⟨"s", .symlink, "g", 0, 0, 0⟩ "/d/s" "/d"
        ⟨[("/d/s", .file [1] 420 0), ("/d", .dir 493 0)], []⟩).1 = none ∧
    (processHardLink ⟨"h", .link, "g", 0, 0, 0⟩ "/d/h" "/d"
        [("/d/h", .file [1] 420 0), ("/d/g", .file [7] 420 3), ("/d", .dir 493 0)]).1 =
      none := by
  refine ⟨?_, ?_, ?_⟩
  · exact (C6_conflict_overwrite_asymmetry.1 "/d/f" ⟨"f", .reg, "", 1, 420, 5⟩ [9]
      [("/d/f", .file [1] 420 0), ("/d", .dir 493 0)]
      [("/d/f", .file [1] 420 0), ("/d", .dir 493 0)] (.file [1] 420 0) rfl rfl).1
  · rw [(C6_conflict_overwrite_asymmetry.2.1 ⟨"s", .symlink, "g", 0, 0, 0⟩ "/d/s" "/d"
      ⟨[("/d/s", .file [1] 420 0), ("/d", .dir 493 0)], []⟩
      [("/d/s", .file [1] 420 0), ("/d", .dir 493 0)] (.file [1] 420 0)
      rfl rfl rfl rfl (by decide) rfl).1]
  · rw [(C6_conflict_overwrite_asymmetry.2.2 ⟨"h", .link, "g", 0, 0, 0⟩ "/d/h" "/d"
      [("/d/h", .file [1] 420 0), ("/d/g", .file [7] 420 3), ("/d", .dir 493 0)]
      [("/d/h", .file [1] 420 0), ("/d/g", .file [7] 420 3), ("/d", .dir 493 0)]
      (.file [1] 420 0) [7] 420 3 rfl rfl rfl rfl).1]

/-- C10: the claim is FALSE as stated in its final consequence: a rejected
symlink entry whose parent directory already exists leaves the file system
exactly unchanged (here a top-level symlink with an absolute target is
rejected and the state is untouched), contradicting "rejection of a
symlink entry does not leave the file system unchanged". -/
theorem C10_counterexample :
    processSymlink ⟨"evil", .symlink, "/etc/passwd", 0, 0, 0⟩ "/d/evil" "/d"
        ⟨fsRoot, []⟩ = (some .absoluteSymlink, ⟨fsRoot, []⟩) := rfl

/-- C10 (amended): `processSymlink` creates the target's parent
directories before any validation of the link target, so every rejection
leaves the file system exactly as that `MkdirAll` left it: ancestors that
were missing are created inside the root despite the rejection (concrete
second conjunct), while a rejected entry whose parents already existed
leaves the file system unchanged (concrete third conjunct). -/
theorem C10_mkdir_before_validation_amended :
    (∀ (h : THeader) (tp destAbs : String) (st : XState) (fs1 : FS) (e : XErr),
      mkdirAll 493 (goDir tp) st.fs = .ok fs1 →
      (processSymlink h tp destAbs st).1 = some e →
      (processSymlink h tp destAbs st).2 = ⟨fs1, st.links⟩) ∧
    (processSymlink ⟨"sub/evil", .symlink, "/etc/passwd", 0, 0, 0⟩ "/d/sub/evil" "/d"
        ⟨fsRoot, []⟩ =
      (some .absoluteSymlink, ⟨[("/d/sub", .dir 493 0), ("/d", .dir 493 0)], []⟩)) ∧
    (processSymlink ⟨"evil", .symlink, "/etc/passwd", 0, 0, 0⟩ "/d/evil" "/d"
        ⟨fsRoot, []⟩ = (some .absoluteSymlink, ⟨fsRoot, []⟩)) := by
  refine ⟨?_, rfl, rfl⟩
  intro h tp destAbs st fs1 e hmk
  unfold processSymlink
  rw [hmk]
  simp only []
  split
  · intro _
    rfl
  · split
    · intro _
      rfl
    · split
      · intro _
        rfl
      · split
        · intro _
          rfl
        · split
          · intro _
            rfl
          · intro h1
            cases h1

/-- Witness for the amended C10 theorem. -/
theorem C10_mkdir_before_validation_amended_witness :
    (processSymlink ⟨"sub/evil", .symlink, "/etc/passwd", 0, 0, 0⟩ "/d/sub/evil" "/d"
        ⟨fsRoot, []⟩).2 =
      ⟨[("/d/sub", .dir 493 0), ("/d", .dir 493 0)], []⟩ :=
  C10_mkdir_before_validation_amended.1 ⟨"sub/evil", .symlink, "/etc/passwd", 0, 0, 0⟩
    "/d/sub/evil" "/d" ⟨fsRoot, []⟩ [("/d/sub", .dir 493 0), ("/d", .dir 493 0)]
    .absoluteSymlink rfl rfl

theorem deltaWithin_refl (d : String) (fs : FS) : DeltaWithin d fs fs :=
  fun _ hq => absurd rfl hq

theorem deltaWithin_trans {d : String} {fs1 fs2 fs3 : FS}
    (h12 : DeltaWithin d fs1 fs2) (h23 : DeltaWithin d fs2 fs3) :
    DeltaWithin d fs1 fs3 := by
  intro q hq
  by_cases h : lookupFS fs3 q = lookupFS fs2 q
  · exact h12 q (fun he => hq (h.trans he))
  · exact h23 q h

theorem lookupFS_ne_none (fs : FS) (q : String) (h : lookupFS fs q ≠ none) :
    ∃ n, lookupFS fs q = some n := by
  cases hl : lookupFS fs q with
  | none => exact absurd hl h
  | some n => exact ⟨n, rfl⟩

theorem wfFS_setFS (fs : FS) (p : String) (n : FNode) (hw : WFfs fs)
    (hp : ∃ ss, NiceSegs ss ∧ p = absOfSegs ss) : WFfs (setFS fs p n) := by
  intro e he
  unfold setFS at he
  rcases List.mem_cons.mp he with h | h
  · rw [h]
    exact hp
  · exact hw e (List.mem_of_mem_filter h)

theorem wfFS_removeAllFS (fs : FS) (tp : String) (hw : WFfs fs) :
    WFfs (removeAllFS fs tp) := by
  intro e he
  unfold removeAllFS at he
  exact hw e (List.mem_of_mem_filter he)

theorem lookupFS_some_shape (fs : FS) (q : String) (n : FNode) (hw : WFfs fs)
    (h : lookupFS fs q = some n) : ∃ ss, NiceSegs ss ∧ q = absOfSegs ss := by
  unfold lookupFS at h
  cases hf : fs.find? (fun e => e.1 == q) with
  | none => rw [hf] at h; cases h
  | some e =>
    have hmem := List.mem_of_find?_eq_some hf
    have hbeq := List.find?_some hf
    have heq : e.1 = q := eq_of_beq hbeq
    obtain ⟨ss, hn, hs⟩ := hw e hmem
    exact ⟨ss, hn, heq ▸ hs⟩

theorem mkdirAllR_wf (m : Nat) :
    ∀ (rsegs : List (List Char)) (fs fs1 : FS),
    mkdirAllR m fs rsegs = .ok fs1 → (∀ s ∈ rsegs, NiceSeg s) → WFfs fs → WFfs fs1 := by
  intro rsegs
  induction rsegs with
  | nil =>
    intro fs fs1 h _ hw
    have he : fs = fs1 := by cases h; rfl
    exact he ▸ hw
  | cons s rest ih =>
    intro fs fs1 h hn hw
    unfold mkdirAllR at h
    simp only [] at h
    split at h
    · have he : fs = fs1 := by cases h; rfl
      exact he ▸ hw
    · cases h
    · split at h
      · cases h
      · rename_i fsm hrec
        have hfs1 : fs1 = setFS fsm (absOfRSegs (s :: rest)) (.dir m 0) := by
          cases h
          rfl
        subst hfs1
        refine wfFS_setFS fsm _ _
          (ih fs fsm hrec (fun t ht => hn t (List.mem_cons_of_mem s ht)) hw) ?_
        exact ⟨(s :: rest).reverse, fun t ht => hn t (List.mem_reverse.mp ht), rfl⟩

theorem mkdirAll_wf (m : Nat) (ss : List (List Char)) (fs fs1 : FS)
    (hnice : NiceSegs ss) (h : mkdirAll m (absOfSegs ss) fs = .ok fs1)
    (hw : WFfs fs) : WFfs fs1 := by
  unfold mkdirAll at h
  rw [segsOf_absOfSegs ss hnice] at h
  exact mkdirAllR_wf m ss.reverse fs fs1 h (fun s hs => hnice s (List.mem_reverse.mp hs)) hw

theorem anc_of_preserve (dss : List (List Char)) (fs fs1 : FS)
    (hpres : ∀ q, lookupFS fs q ≠ none → lookupFS fs1 q = lookupFS fs q)
    (h : AncestorsExist dss fs) : AncestorsExist dss fs1 := by
  intro k hk
  have h1 := h k hk
  rw [hpres _ h1]
  exact h1

theorem anc_setFS (dss : List (List Char)) (p : String) (n : FNode) (fs : FS)
    (ha : AncestorsExist dss fs) : AncestorsExist dss (setFS fs p n) := by
  intro k hk
  rw [lookupFS_setFS]
  by_cases h : absOfSegs (dss.take k) = p
  · rw [if_pos h]
    simp
  · rw [if_neg h]
    exact ha k hk

theorem anc_chtimes (dss : List (List Char)) (p : String) (mt : Int) (fs fs1 : FS)
    (h : chtimes p mt fs = .ok fs1) (ha : AncestorsExist dss fs) :
    AncestorsExist dss fs1 := by
  intro k hk
  have h1 := ha k hk
  by_cases hc : lookupFS fs1 (absOfSegs (dss.take k)) = lookupFS fs (absOfSegs (dss.take k))
  · rw [hc]
    exact h1
  · exact (chtimes_ok_changes p mt fs fs1 h _ hc).2

theorem joinSegs_length_lt (ss ts : List (List Char)) (ht : NiceSegs ts)
    (hts : ts ≠ []) : (joinSegs ss).length < (joinSegs (ss ++ ts)).length := by
  by_cases hss : ss = []
  · subst hss
    simp only [List.nil_append]
    have h1 : joinSegs ts ≠ [] := fun h0 => hts ((joinSegs_eq_nil_iff ts ht).mp h0)
    have h2 : 0 < (joinSegs ts).length := List.length_pos.mpr h1
    simpa [joinSegs] using h2
  · rw [joinSegs_append ss ts hss hts, List.length_append]
    have h3 : 0 < ('/' :: joinSegs ts).length := by simp
    omega

theorem absOfSegs_length_lt (ss ts : List (List Char)) (ht : NiceSegs ts)
    (hts : ts ≠ []) :
    (absOfSegs ss).data.length < (absOfSegs (ss ++ ts)).data.length := by
  rw [absOfSegs_data, absOfSegs_data]
  simp only [List.length_cons]
  exact Nat.succ_lt_succ (joinSegs_length_lt ss ts ht hts)

theorem underOrEq_take_false (dss qs : List (List Char)) (k : Nat)
    (hd : NiceSegs dss) (hq : NiceSegs qs) (hdq : dss <+: qs) (hk : k < dss.length) :
    underOrEq (absOfSegs qs) (absOfSegs (dss.take k)) = false := by
  have hdrop_ne : dss.drop k ≠ [] := by
    intro h0
    have h1 := congrArg List.length h0
    rw [List.length_drop] at h1
    simp at h1
    omega
  have hnice_drop : NiceSegs (dss.drop k) := fun s hs => hd s (List.mem_of_mem_drop hs)
  have hlen1 : (absOfSegs (dss.take k)).data.length < (absOfSegs dss).data.length := by
    have h2 := absOfSegs_length_lt (dss.take k) (dss.drop k) hnice_drop hdrop_ne
    rw [List.take_append_drop] at h2
    exact h2
  have hlen2 : (absOfSegs dss).data.length ≤ (absOfSegs qs).data.length := by
    obtain ⟨ts, hts⟩ := hdq
    by_cases hts0 : ts = []
    · subst hts0
      rw [← hts]
      simp
    · have h3 := absOfSegs_length_lt dss ts
        (fun s hs => hq s (by rw [← hts]; exact List.mem_append.mpr (Or.inr hs))) hts0
      rw [hts] at h3
      exact le_of_lt h3
  have hlt : (absOfSegs (dss.take k)).data.length < (absOfSegs qs).data.length :=
    lt_of_lt_of_le hlen1 hlen2
  unfold underOrEq
  apply Bool.or_eq_false_iff.mpr
  constructor
  · apply beq_eq_false_iff_ne.mpr
    intro he
    rw [he] at hlt
    exact lt_irrefl _ hlt
  · cases hp : ((absOfSegs qs).data ++ ['/']).isPrefixOf (absOfSegs (dss.take k)).data with
    | false => rfl
    | true =>
      exfalso
      have h4 := (List.isPrefixOf_iff_prefix.mp hp).length_le
      rw [List.length_append] at h4
      simp only [List.length_cons, List.length_nil] at h4
      omega

theorem anc_removeAllFS (dss qs : List (List Char)) (fs : FS)
    (hd : NiceSegs dss) (hq : NiceSegs qs) (hdq : dss <+: qs)
    (ha : AncestorsExist dss fs) :
    AncestorsExist dss (removeAllFS fs (absOfSegs qs)) := by
  intro k hk
  rw [lookupFS_removeAllFS, if_neg (by
    rw [underOrEq_take_false dss qs k hd hq hdq hk]
    exact Bool.false_ne_true)]
  exact ha k hk

theorem prefix_within (dss qs : List (List Char)) (hd : NiceSegs dss)
    (hq : NiceSegs qs) (hdq : dss <+: qs) (hz : dss ≠ [] ∨ qs = dss) :
    isPathWithinBoundary (absOfSegs qs) (absOfSegs dss) = true := by
  obtain ⟨ts, hts⟩ := hdq
  by_cases hts0 : ts = []
  · subst hts0
    have h1 : dss = qs := by simpa using hts
    rw [← h1]
    exact isWithin_refl _
  · have hdne : dss ≠ [] := by
      rcases hz with h | h
      · exact h
      · exfalso
        rw [h] at hts
        have h2 : ts = [] := by
          have h3 := congrArg List.length hts
          rw [List.length_append] at h3
          have h4 : ts.length = 0 := by omega
          exact List.eq_nil_of_length_eq_zero h4
        exact hts0 h2
    rw [← hts]
    exact isWithin_absOfSegs_append dss ts hd (fun s hsm =>
      hq s (by rw [← hts]; exact List.mem_append.mpr (Or.inr hsm))) hdne hts0

theorem underOrEq_within (dss qs ss : List (List Char))
    (hd : NiceSegs dss) (hq : NiceSegs qs) (hs : NiceSegs ss)
    (hdq : dss <+: qs) (hz : dss ≠ [] ∨ qs = dss)
    (hu : underOrEq (absOfSegs qs) (absOfSegs ss) = true) :
    isPathWithinBoundary (absOfSegs ss) (absOfSegs dss) = true := by
  unfold underOrEq at hu
  rcases Bool.or_eq_true_iff.mp hu with h1 | h1
  · have h2 : ss = qs := absOfSegs_inj hs hq (eq_of_beq h1)
    rw [h2]
    exact prefix_within dss qs hd hq hdq hz
  · rw [List.isPrefixOf_iff_prefix] at h1
    obtain ⟨r, hr⟩ := h1
    by_cases hqs0 : qs = []
    · subst hqs0
      exfalso
      have h2 : ('/' :: r : List Char) = joinSegs ss := by
        have h3 : ('/' :: '/' :: r : List Char) = '/' :: joinSegs ss := by
          simpa [absOfSegs_data, joinSegs] using hr
        exact (List.cons.inj h3).2
      have h4 := joinSegs_head_ne_slash ss hs
      rw [← h2] at h4
      simp at h4
    · obtain ⟨hsseq, hrne⟩ := absOfSegs_data_ext qs ss r hqs0
        (fun s hsm => (hq s hsm).2.1) hs (by rw [← hr]; simp)
      have hdne : dss ≠ [] := by
        rcases hz with h | h
        · exact h
        · exact h ▸ hqs0
      obtain ⟨ts, hts⟩ := hdq
      rw [hsseq, ← hts, List.append_assoc]
      have hnice2 : NiceSegs (ts ++ splitOnSlash r) := by
        intro s hsm
        apply hs
        rw [hsseq, ← hts]
        rcases List.mem_append.mp hsm with h | h
        · exact List.mem_append.mpr (Or.inl (List.mem_append.mpr (Or.inr h)))
        · exact List.mem_append.mpr (Or.inr h)
      exact isWithin_absOfSegs_append dss (ts ++ splitOnSlash r) hd hnice2 hdne
        (fun h0 => hrne (List.append_eq_nil.mp h0).2)

theorem removeAllFS_delta (dss qs : List (List Char)) (fs : FS)
    (hd : NiceSegs dss) (hq : NiceSegs qs) (hdq : dss <+: qs)
    (hz : dss ≠ [] ∨ qs = dss) (hw : WFfs fs) :
    DeltaWithin (absOfSegs dss) fs (removeAllFS fs (absOfSegs qs)) := by
  intro q hne
  rw [lookupFS_removeAllFS] at hne
  by_cases hu : underOrEq (absOfSegs qs) q = true
  · rw [if_pos hu] at hne
    have hex : lookupFS fs q ≠ none := fun h0 => hne h0.symm
    obtain ⟨n, hn⟩ := lookupFS_ne_none fs q hex
    obtain ⟨ss, hss, rfl⟩ := lookupFS_some_shape fs q n hw hn
    exact underOrEq_within dss qs ss hd hq hss hdq hz hu
  · rw [if_neg hu] at hne
    exact absurd rfl hne

theorem chtimes_wf (p : String) (mt : Int) (fs fs1 : FS)
    (h : chtimes p mt fs = .ok fs1) (hw : WFfs fs) : WFfs fs1 := by
  unfold chtimes at h
  split at h
  · rename_i mode mtime hl
    have he : fs1 = setFS fs p (.dir mode mt) := by cases h; rfl
    subst he
    exact wfFS_setFS fs p _ hw (lookupFS_some_shape fs p _ hw hl)
  · rename_i c mode mtime hl
    have he : fs1 = setFS fs p (.file c mode mt) := by cases h; rfl
    subst he
    exact wfFS_setFS fs p _ hw (lookupFS_some_shape fs p _ hw hl)
  · have he : fs1 = fs := by cases h; rfl
    exact he ▸ hw
  · cases h

theorem chtimes_delta (d p : String) (mt : Int) (fs fs1 : FS)
    (h : chtimes p mt fs = .ok fs1)
    (hp : isPathWithinBoundary p d = true) : DeltaWithin d fs fs1 := by
  intro q hq
  rw [(chtimes_ok_changes p mt fs fs1 h q hq).1]
  exact hp

theorem setFS_delta (d p : String) (n : FNode) (fs : FS)
    (hp : isPathWithinBoundary p d = true) : DeltaWithin d fs (setFS fs p n) := by
  intro q hq
  rw [lookupFS_setFS] at hq
  by_cases h : q = p
  · rw [h]
    exact hp
  · rw [if_neg h] at hq
    exact absurd rfl hq

theorem mkdirAll_delta (m : Nat) (dss qs rs : List (List Char)) (fs fs1 : FS)
    (hd : NiceSegs dss) (hq : NiceSegs qs)
    (hdq : dss <+: qs) (hz : dss ≠ [] ∨ qs = dss) (hrq : rs <+: qs)
    (hok : mkdirAll m (absOfSegs rs) fs = .ok fs1)
    (hanc : AncestorsExist dss fs) :
    DeltaWithin (absOfSegs dss) fs fs1 := by
  intro q hne
  have hrs_nice : NiceSegs rs := fun s hs => hq s (hrq.subset hs)
  obtain ⟨⟨ps, hp0, hpr, hpq⟩, h1, h2⟩ := mkdirAll_ok_changes m rs fs fs1 hrs_nice hok q hne
  subst hpq
  have hpq2 : ps <+: qs := hpr.trans hrq
  by_cases hlen : ps.length < dss.length
  · have hpd : ps <+: dss := List.prefix_of_prefix_length_le hpq2 hdq (le_of_lt hlen)
    exfalso
    have h3 := hanc ps.length hlen
    rw [← List.prefix_iff_eq_take.mp hpd] at h3
    exact h3 h1
  · have hdp : dss <+: ps := List.prefix_of_prefix_length_le hdq hpq2 (le_of_not_lt hlen)
    have hz2 : dss ≠ [] ∨ ps = dss := by
      by_cases hd0 : dss = []
      · right
        rcases hz with h | h
        · exact absurd hd0 h
        · rw [h, hd0] at hpq2
          exact absurd (List.prefix_nil.mp hpq2) hp0
      · left
        exact hd0
    exact prefix_within dss ps hd (fun s hs => hq s (hpq2.subset hs)) hdp hz2

theorem goDir_absOfSegs (qs : List (List Char)) (hq : NiceSegs qs) :
    goDir (absOfSegs qs) = absOfSegs qs.dropLast := by
  induction qs using List.reverseRecOn with
  | nil => decide
  | append_singleton ss s _ =>
    rw [goDir_absOfSegs_last ss s (niceSegs_of_append_left hq) (hq s (by simp)),
      List.dropLast_concat]

theorem getTargetPath_qs_shape (name : String) (dss : List (List Char)) (t : String)
    (hd : NiceSegs dss) (h : getTargetPath name (absOfSegs dss) = .ok t) :
    ∃ qs, NiceSegs qs ∧ t = absOfSegs qs ∧ dss <+: qs ∧ (dss ≠ [] ∨ qs = dss) := by
  rcases getTargetPath_ok_shape name dss t hd h with h1 | ⟨hds, ts, hts, htn, h2⟩
  · exact ⟨dss, hd, h1, List.prefix_refl dss, Or.inr rfl⟩
  · exact ⟨dss ++ ts, niceSegs_append hd htn, h2, ⟨ts, rfl⟩, Or.inl hds⟩

theorem processDirectory_delta (dss qs : List (List Char)) (h : THeader) (fs : FS)
    (hd : NiceSegs dss) (hq : NiceSegs qs) (hdq : dss <+: qs)
    (hz : dss ≠ [] ∨ qs = dss) (hw : WFfs fs) (ha : AncestorsExist dss fs) :
    WFfs (processDirectory (absOfSegs qs) h fs).2 ∧
    AncestorsExist dss (processDirectory (absOfSegs qs) h fs).2 ∧
    DeltaWithin (absOfSegs dss) fs (processDirectory (absOfSegs qs) h fs).2 := by
  unfold processDirectory
  split
  · exact ⟨hw, ha, deltaWithin_refl _ _⟩
  · rename_i fs1 hmk
    have hw1 : WFfs fs1 := mkdirAll_wf h.mode qs fs fs1 hq hmk hw
    have ha1 : AncestorsExist dss fs1 :=
      anc_of_preserve dss fs fs1 (fun r hr => mkdirAll_preserves h.mode _ fs fs1 hmk r hr) ha
    have hδ1 : DeltaWithin (absOfSegs dss) fs fs1 :=
      mkdirAll_delta h.mode dss qs qs fs fs1 hd hq hdq hz (List.prefix_refl qs) hmk ha
    split
    · exact ⟨hw1, ha1, hδ1⟩
    · rename_i fs2 hch
      exact ⟨chtimes_wf _ _ fs1 fs2 hch hw1, anc_chtimes dss _ _ fs1 fs2 hch ha1,
        deltaWithin_trans hδ1
          (chtimes_delta _ _ _ fs1 fs2 hch (prefix_within dss qs hd hq hdq hz))⟩

theorem processFile_delta (dss qs : List (List Char)) (h : THeader)
    (content : List Nat) (fs : FS)
    (hd : NiceSegs dss) (hq : NiceSegs qs) (hdq : dss <+: qs)
    (hz : dss ≠ [] ∨ qs = dss) (hw : WFfs fs) (ha : AncestorsExist dss fs) :
    WFfs (processFile (absOfSegs qs) h content fs).2 ∧
    AncestorsExist dss (processFile (absOfSegs qs) h content fs).2 ∧
    DeltaWithin (absOfSegs dss) fs (processFile (absOfSegs qs) h content fs).2 := by
  have hnicedl : NiceSegs qs.dropLast := fun s hs => hq s ((List.dropLast_prefix qs).subset hs)
  unfold processFile
  rw [goDir_absOfSegs qs hq]
  split
  · exact ⟨hw, ha, deltaWithin_refl _ _⟩
  · rename_i fs1 hmk
    have hw1 : WFfs fs1 := mkdirAll_wf 493 qs.dropLast fs fs1 hnicedl hmk hw
    have ha1 : AncestorsExist dss fs1 :=
      anc_of_preserve dss fs fs1 (fun r hr => mkdirAll_preserves 493 _ fs fs1 hmk r hr) ha
    have hδ1 : DeltaWithin (absOfSegs dss) fs fs1 :=
      mkdirAll_delta 493 dss qs qs.dropLast fs fs1 hd hq hdq hz (List.dropLast_prefix qs) hmk ha
    split
    · exact ⟨hw1, ha1, hδ1⟩
    · simp only []
      have hw2 : WFfs (setFS fs1 (absOfSegs qs) (.file (content.take h.size) h.mode 0)) :=
        wfFS_setFS fs1 _ _ hw1 ⟨qs, hq, rfl⟩
      have ha2 := anc_setFS dss (absOfSegs qs) (.file (content.take h.size) h.mode 0) fs1 ha1
      have hδ2 : DeltaWithin (absOfSegs dss) fs
          (setFS fs1 (absOfSegs qs) (.file (content.take h.size) h.mode 0)) :=
        deltaWithin_trans hδ1 (setFS_delta _ _ _ fs1 (prefix_within dss qs hd hq hdq hz))
      split
      · exact ⟨hw2, ha2, hδ2⟩
      · rename_i fs3 hch
        exact ⟨chtimes_wf _ _ _ fs3 hch hw2, anc_chtimes dss _ _ _ fs3 hch ha2,
          deltaWithin_trans hδ2
            (chtimes_delta _ _ _ _ fs3 hch (prefix_within dss qs hd hq hdq hz))⟩

theorem processSymlink_delta (dss qs : List (List Char)) (h : THeader) (st : XState)
    (hd : NiceSegs dss) (hq : NiceSegs qs) (hdq : dss <+: qs)
    (hz : dss ≠ [] ∨ qs = dss) (hw : WFfs st.fs) (ha : AncestorsExist dss st.fs) :
    WFfs (processSymlink h (absOfSegs qs) (absOfSegs dss) st).2.fs ∧
    AncestorsExist dss (processSymlink h (absOfSegs qs) (absOfSegs dss) st).2.fs ∧
    DeltaWithin (absOfSegs dss) st.fs
      (processSymlink h (absOfSegs qs) (absOfSegs dss) st).2.fs := by
  have hnicedl : NiceSegs qs.dropLast := fun s hs => hq s ((List.dropLast_prefix qs).subset hs)
  unfold processSymlink
  simp only []
  rw [goDir_absOfSegs qs hq]
  split
  · exact ⟨hw, ha, deltaWithin_refl _ _⟩
  · rename_i fs1 hmk
    have hw1 : WFfs fs1 := mkdirAll_wf 493 qs.dropLast st.fs fs1 hnicedl hmk hw
    have ha1 : AncestorsExist dss fs1 :=
      anc_of_preserve dss st.fs fs1 (fun r hr => mkdirAll_preserves 493 _ st.fs fs1 hmk r hr) ha
    have hδ1 : DeltaWithin (absOfSegs dss) st.fs fs1 :=
      mkdirAll_delta 493 dss qs qs.dropLast st.fs fs1 hd hq hdq hz
        (List.dropLast_prefix qs) hmk ha
    split
    · exact ⟨hw1, ha1, hδ1⟩
    · split
      · exact ⟨hw1, ha1, hδ1⟩
      · split
        · exact ⟨hw1, ha1, hδ1⟩
        · split
          · exact ⟨hw1, ha1, hδ1⟩
          · split
            · exact ⟨hw1, ha1, hδ1⟩
            · have hw2 := wfFS_removeAllFS fs1 (absOfSegs qs) hw1
              have ha2 := anc_removeAllFS dss qs fs1 hd hq hdq ha1
              have hδ2 := removeAllFS_delta dss qs fs1 hd hq hdq hz hw1
              exact ⟨wfFS_setFS _ _ _ hw2 ⟨qs, hq, rfl⟩,
                anc_setFS dss _ _ _ ha2,
                deltaWithin_trans hδ1 (deltaWithin_trans hδ2
                  (setFS_delta _ _ _ _ (prefix_within dss qs hd hq hdq hz)))⟩

theorem processHardLink_delta (dss qs : List (List Char)) (h : THeader) (fs : FS)
    (hd : NiceSegs dss) (hq : NiceSegs qs) (hdq : dss <+: qs)
    (hz : dss ≠ [] ∨ qs = dss) (hw : WFfs fs) (ha : AncestorsExist dss fs) :
    WFfs (processHardLink h (absOfSegs qs) (absOfSegs dss) fs).2 ∧
    AncestorsExist dss (processHardLink h (absOfSegs qs) (absOfSegs dss) fs).2 ∧
    DeltaWithin (absOfSegs dss) fs (processHardLink h (absOfSegs qs) (absOfSegs dss) fs).2 := by
  have hnicedl : NiceSegs qs.dropLast := fun s hs => hq s ((List.dropLast_prefix qs).subset hs)
  unfold processHardLink
  simp only []
  rw [goDir_absOfSegs qs hq]
  split
  · exact ⟨hw, ha, deltaWithin_refl _ _⟩
  · split
    · exact ⟨hw, ha, deltaWithin_refl _ _⟩
    · rename_i fs1 hmk
      have hw1 : WFfs fs1 := mkdirAll_wf 493 qs.dropLast fs fs1 hnicedl hmk hw
      have ha1 : AncestorsExist dss fs1 :=
        anc_of_preserve dss fs fs1 (fun r hr => mkdirAll_preserves 493 _ fs fs1 hmk r hr) ha
      have hδ1 : DeltaWithin (absOfSegs dss) fs fs1 :=
        mkdirAll_delta 493 dss qs qs.dropLast fs fs1 hd hq hdq hz
          (List.dropLast_prefix qs) hmk ha
      have hw2 := wfFS_removeAllFS fs1 (absOfSegs qs) hw1
      have ha2 := anc_removeAllFS dss qs fs1 hd hq hdq ha1
      have hδ2 := deltaWithin_trans hδ1 (removeAllFS_delta dss qs fs1 hd hq hdq hz hw1)
      split
      · exact ⟨wfFS_setFS _ _ _ hw2 ⟨qs, hq, rfl⟩, anc_setFS dss _ _ _ ha2,
          deltaWithin_trans hδ2 (setFS_delta _ _ _ _ (prefix_within dss qs hd hq hdq hz))⟩
      · exact ⟨wfFS_setFS _ _ _ hw2 ⟨qs, hq, rfl⟩, anc_setFS dss _ _ _ ha2,
          deltaWithin_trans hδ2 (setFS_delta _ _ _ _ (prefix_within dss qs hd hq hdq hz))⟩
      · exact ⟨hw2, ha2, hδ2⟩
      · exact ⟨hw2, ha2, hδ2⟩

theorem processItem_delta (dss qs : List (List Char)) (e : TEntry) (st : XState)
    (hd : NiceSegs dss) (hq : NiceSegs qs) (hdq : dss <+: qs)
    (hz : dss ≠ [] ∨ qs = dss) (hw : WFfs st.fs) (ha : AncestorsExist dss st.fs) :
    WFfs (processItem e (absOfSegs qs) (absOfSegs dss) st).2.fs ∧
    AncestorsExist dss (processItem e (absOfSegs qs) (absOfSegs dss) st).2.fs ∧
    DeltaWithin (absOfSegs dss) st.fs
      (processItem e (absOfSegs qs) (absOfSegs dss) st).2.fs := by
  unfold processItem
  split
  · exact processDirectory_delta dss qs e.header st.fs hd hq hdq hz hw ha
  · exact processFile_delta dss qs e.header e.content st.fs hd hq hdq hz hw ha
  · exact processFile_delta dss qs e.header e.content st.fs hd hq hdq hz hw ha
  · exact processFile_delta dss qs e.header e.content st.fs hd hq hdq hz hw ha
  · exact processFile_delta dss qs e.header e.content st.fs hd hq hdq hz hw ha
  · exact processFile_delta dss qs e.header e.content st.fs hd hq hdq hz hw ha
  · exact processSymlink_delta dss qs e.header st hd hq hdq hz hw ha
  · exact processHardLink_delta dss qs e.header st.fs hd hq hdq hz hw ha
  · exact ⟨hw, ha, deltaWithin_refl _ _⟩

theorem runEntries_cons_err (destAbs : String) (e : TEntry) (rest : List TEntry)
    (st : XState) (err : XErr)
    (h : getTargetPath e.header.name destAbs = .error err) :
    runEntries destAbs (e :: rest) st = (some err, st) := by
  unfold runEntries
  rw [h]

theorem runEntries_cons_ok (destAbs tp : String) (e : TEntry) (rest : List TEntry)
    (st : XState) (h : getTargetPath e.header.name destAbs = .ok tp) :
    runEntries destAbs (e :: rest) st =
      match processItem e tp destAbs st with
      | (some err, st1) => (some err, st1)
      | (none, st1) => runEntries destAbs rest st1 := by
  have h2 : runEntries destAbs (e :: rest) st =
      match getTargetPath e.header.name destAbs with
      | .error err => (some err, st)
      | .ok targetPath =>
        match processItem e targetPath destAbs st with
        | (some err, st1) => (some err, st1)
        | (none, st1) => runEntries destAbs rest st1 := rfl
  rw [h2, h]

theorem runEntries_delta (dss : List (List Char)) (hd : NiceSegs dss) :
    ∀ (entries : List TEntry) (st : XState),
    WFfs st.fs → AncestorsExist dss st.fs →
    WFfs (runEntries (absOfSegs dss) entries st).2.fs ∧
    AncestorsExist dss (runEntries (absOfSegs dss) entries st).2.fs ∧
    DeltaWithin (absOfSegs dss) st.fs (runEntries (absOfSegs dss) entries st).2.fs := by
  intro entries
  induction entries with
  | nil =>
    intro st hw ha
    exact ⟨hw, ha, deltaWithin_refl _ _⟩
  | cons e rest ih =>
    intro st hw ha
    cases hgt : getTargetPath e.header.name (absOfSegs dss) with
    | error err =>
      rw [runEntries_cons_err _ e rest st err hgt]
      exact ⟨hw, ha, deltaWithin_refl _ _⟩
    | ok tp =>
      rw [runEntries_cons_ok _ tp e rest st hgt]
      obtain ⟨qs, hq, htp, hdq, hz⟩ := getTargetPath_qs_shape e.header.name dss tp hd hgt
      subst htp
      have hδ := processItem_delta dss qs e st hd hq hdq hz hw ha
      cases hpi : processItem e (absOfSegs qs) (absOfSegs dss) st with
      | mk o st1 =>
        rw [hpi] at hδ
        cases o with
        | some err =>
          exact hδ
        | none =>
          obtain ⟨hw1, ha1, hδ1⟩ := hδ
          obtain ⟨hw2, ha2, hδ2⟩ := ih st1 hw1 ha1
          exact ⟨hw2, ha2, deltaWithin_trans hδ1 hδ2⟩

theorem unarchive_delta (entries : List TEntry) (dest : String) (fs : FS)
    (hdest : dest.data.head? = some (Char.ofNat 47))
    (hw : WFfs fs) (hanc : AncestorsExist (segsOf (clean dest)) fs) :
    DeltaWithin (clean dest) fs (unarchive entries dest fs).2 := by
  intro q hne
  obtain ⟨ss, hnice, hcd⟩ := cleanData_rooted_shape dest.data hdest
  have hclean : clean dest = absOfSegs ss := congrArg String.mk hcd
  unfold unarchive at hne
  simp only [] at hne
  rw [hclean] at hne ⊢
  cases hmk : mkdirAll 493 (absOfSegs ss) fs with
  | error e =>
    rw [hmk] at hne
    exact absurd rfl hne
  | ok fs1 =>
    rw [hmk] at hne
    have hanc1 : AncestorsExist ss fs := by
      rw [hclean, segsOf_absOfSegs ss hnice] at hanc
      exact hanc
    have hw1 := mkdirAll_wf 493 ss fs fs1 hnice hmk hw
    have ha1 := anc_of_preserve ss fs fs1
      (fun r hr => mkdirAll_preserves 493 _ fs fs1 hmk r hr) hanc1
    have hδ1 := mkdirAll_delta 493 ss ss ss fs fs1 hnice hnice (List.prefix_refl ss)
      (Or.inr rfl) (List.prefix_refl ss) hmk hanc1
    obtain ⟨hw2, ha2, hδ2⟩ := runEntries_delta ss hnice entries ⟨fs1, []⟩ hw1 ha1
    exact deltaWithin_trans hδ1 hδ2 q hne

theorem getTargetPath_absolute (name destAbs : String)
    (h : (clean name).data.head? = some '/' ∨ (clean name).data.head? = some '\\' ∨
      driveLetter (clean name) = true) :
    getTargetPath name destAbs = .error .absolutePath := by
  unfold getTargetPath
  simp only []
  by_cases h1 : ((clean name).data.head? == some '/' ||
      (clean name).data.head? == some '\\') = true
  · rw [if_pos h1]
  · rw [if_neg h1]
    rcases h with h | h | h
    · exact absurd (Bool.or_eq_true_iff.mpr (Or.inl (beq_iff_eq.mpr h))) h1
    · exact absurd (Bool.or_eq_true_iff.mpr (Or.inr (beq_iff_eq.mpr h))) h1
    · rw [if_pos h]

theorem getTargetPath_traversal (name destAbs : String)
    (h : getTargetPath name destAbs = .error .traversalAttempt) :
    isPathWithinBoundary (joinPath destAbs (clean name)) destAbs = false := by
  unfold getTargetPath at h
  simp only [] at h
  split at h
  · cases h
  · split at h
    · cases h
    · split at h
      · cases h
      · rename_i hguard
        exact Bool.eq_false_iff.mpr hguard

/-- C1: the central safety invariant of `Unarchive`.  (i) For every entry
list, every absolute destination and every well-formed file system whose
destination-root ancestors exist, every path whose content `unarchive`
changes lies within the resolved destination root (no write occurs outside
it, for any entry of any untrusted stream).  (ii) An entry whose cleaned
stored name is separator-prefixed (slash or backslash) or drive-letter
shaped fails with `absolutePath`.  (iii) An entry rejected with
`traversalAttempt` is exactly one whose name joined onto the root and
lexically normalized falls outside the root.  (iv) Either rejection
happens before any write for that entry: the entry loop stops with the
state untouched by that entry.  (v) Concretely, an entry named
`../outside/evil.txt` makes `unarchive` fail with `traversalAttempt` and
creates nothing under the parent of the destination root: the final file
system holds only the pre-existing `/` and the created root `/dest`. -/
theorem C1_no_write_outside_root :
    (∀ (entries : List TEntry) (dest : String) (fs : FS),
      dest.data.head? = some '/' → WFfs fs → AncestorsExist (segsOf (clean dest)) fs →
      ∀ q, lookupFS (unarchive entries dest fs).2 q ≠ lookupFS fs q →
        isPathWithinBoundary q (clean dest) = true) ∧
    (∀ (name destAbs : String),
      ((clean name).data.head? = some '/' ∨ (clean name).data.head? = some '\\' ∨
        driveLetter (clean name) = true) →
      getTargetPath name destAbs = .error .absolutePath) ∧
    (∀ (name destAbs : String),
      getTargetPath name destAbs = .error .traversalAttempt →
      isPathWithinBoundary (joinPath destAbs (clean name)) destAbs = false) ∧
    (∀ (e : TEntry) (rest : List TEntry) (st : XState) (destAbs : String) (err : XErr),
      getTargetPath e.header.name destAbs = .error err →
      runEntries destAbs (e :: rest) st = (some err, st)) ∧
    unarchive [⟨⟨"../outside/evil.txt", .reg, "", 5, 420, 0⟩, [1, 2, 3, 4, 5]⟩] "/dest"
        [("/", .dir 493 0)] =
      (some .traversalAttempt, [("/dest", .dir 493 0), ("/", .dir 493 0)]) := by
  refine ⟨?_, ?_, ?_, ?_, ?_⟩
  · intro entries dest fs hdest hw hanc q hne
    exact unarchive_delta entries dest fs hdest hw hanc q hne
  · intro name destAbs h
    exact getTargetPath_absolute name destAbs h
  · intro name destAbs h
    exact getTargetPath_traversal name destAbs h
  · intro e rest st destAbs err h
    exact runEntries_cons_err destAbs e rest st err h
  · rfl

/-- Witness for C1: each universally quantified conjunct applied at
concrete inputs. -/
theorem C1_no_write_outside_root_witness :
    isPathWithinBoundary "/dest/sub" (clean "/dest") = true ∧
    getTargetPath "/etc/passwd" "/dest" = .error .absolutePath ∧
    isPathWithinBoundary (joinPath "/dest" (clean "../outside/evil.txt")) "/dest" = false ∧
    runEntries "/dest" [⟨⟨"../x", .reg, "", 0, 0, 0⟩, []⟩] ⟨[("/dest", .dir 493 0)], []⟩ =
      (some .traversalAttempt, ⟨[("/dest", .dir 493 0)], []⟩) := by
  refine ⟨?_, ?_, ?_, ?_⟩
  · exact C1_no_write_outside_root.1
      [⟨⟨"sub", .dir, "", 0, 493, 0⟩, []⟩] "/dest" [("/", .dir 493 0)]
      (by decide)
      (fun e he => by
        rw [List.mem_singleton] at he
        subst he
        exact ⟨[], fun s hs => absurd hs (List.not_mem_nil s), rfl⟩)
      (fun k hk => by
        have hl : (segsOf (clean "/dest")).length = 1 := by decide
        rw [hl] at hk
        have hk0 : k = 0 := Nat.lt_one_iff.mp hk
        subst hk0
        decide)
      "/dest/sub" (by decide)
  · exact C1_no_write_outside_root.2.1 "/etc/passwd" "/dest" (Or.inl (by decide))
  · exact C1_no_write_outside_root.2.2.1 "../outside/evil.txt" "/dest" rfl
  · exact C1_no_write_outside_root.2.2.2.1 ⟨⟨"../x", .reg, "", 0, 0, 0⟩, []⟩ []
      ⟨[("/dest", .dir 493 0)], []⟩ "/dest" .traversalAttempt rfl

theorem copyFileContent_all (c : List Nat) : copyFileContent c c.length = (c, none) := by
  unfold copyFileContent tarWrite
  simp [List.take_length]

/-- C4 counterexample: two regular-file source sets are in the claim's
scope, but archiving `/s1/x` and `/s2/x` (preserve-path off, the default)
stores both entries under the bare name `x`, and extraction then fails
with a file conflict on the second entry: its bytes `[2]` are never
reproduced, the extracted tree holds only the first file's bytes `[1]`. -/
theorem C4_counterexample :
    archive ⟨-1, false⟩ envC4 [("/s1/x", .file [1] 420 0), ("/s2/x", .file [2] 420 0)] =
      .ok [⟨⟨"x", .reg, "", 1, 420, 0⟩, [1]⟩, ⟨⟨"x", .reg, "", 1, 420, 0⟩, [2]⟩] ∧
    unarchive [⟨⟨"x", .reg, "", 1, 420, 0⟩, [1]⟩, ⟨⟨"x", .reg, "", 1, 420, 0⟩, [2]⟩]
        "/dest" [("/", .dir 493 0)] =
      (some .fileConflict,
        [("/dest/x", .file [1] 420 0), ("/dest", .dir 493 0), ("/", .dir 493 0)]) :=
  ⟨rfl, rfl⟩

set_option maxHeartbeats 4000000 in
/-- C4 amended: the round trip of the original claim fails in general
(see the counterexample); in the collision-free cases it holds for the
observables the extraction code itself determines.  (i) For every single
regular-file source — arbitrary content bytes, mode word, modification
time and resolution environment — extraction succeeds and recreates the
file under the destination root with byte-identical content, the archived
modification time restored by the final `Chtimes`, and the archived mode
word passed to the creating `OpenFile` call (the process umask, which the
operating system applies on top of that word, is outside this model).
(ii) A directory source holding a regular file, an empty directory and a
non-escaping relative symlink archives to exactly the four expected
entries, and (iii) extracting them succeeds, reproducing the file's bytes
and archived time, the childless directory's archived time and the
symlink's exact target, and recreating the containing directory — whose
own modification time is deliberately not asserted: the program restores
it before extracting the children, and creating the children then updates
it again on a POSIX file system, an operating-system side effect this
lexical model does not track. -/
theorem C4_roundtrip_amended :
    (∀ (env : String → Option (String × Bool)) (content : List Nat) (mode : Nat) (mt : Int),
      archive ⟨-1, false⟩ env [("/src/x", .file content mode mt)] =
        .ok [⟨⟨"x", .reg, "", content.length, mode, mt⟩, content⟩] ∧
      (unarchive [⟨⟨"x", .reg, "", content.length, mode, mt⟩, content⟩] "/dest"
          [("/", .dir 493 0)]).1 = none ∧
      lookupFS (unarchive [⟨⟨"x", .reg, "", content.length, mode, mt⟩, content⟩] "/dest"
          [("/", .dir 493 0)]).2 "/dest/x" = some (.file content mode mt)) ∧
    archive ⟨-1, false⟩ envC4
        [("/src", .dir 493 10 [("a", .file [7] 420 11), ("emptyd", .dir 489 12 []),
          ("ln", .symlink "a")])] =
      .ok [⟨⟨"src/", .dir, "", 0, 493, 10⟩, []⟩, ⟨⟨"src/a", .reg, "", 1, 420, 11⟩, [7]⟩,
        ⟨⟨"src/emptyd/", .dir, "", 0, 489, 12⟩, []⟩,
        ⟨⟨"src/ln", .symlink, "a", 0, 511, 0⟩, []⟩] ∧
    (unarchive [⟨⟨"src/", .dir, "", 0, 493, 10⟩, []⟩, ⟨⟨"src/a", .reg, "", 1, 420, 11⟩, [7]⟩,
        ⟨⟨"src/emptyd/", .dir, "", 0, 489, 12⟩, []⟩,
        ⟨⟨"src/ln", .symlink, "a", 0, 511, 0⟩, []⟩] "/dest" [("/", .dir 493 0)]).1 = none ∧
    lookupFS (unarchive [⟨⟨"src/", .dir, "", 0, 493, 10⟩, []⟩,
        ⟨⟨"src/a", .reg, "", 1, 420, 11⟩, [7]⟩, ⟨⟨"src/emptyd/", .dir, "", 0, 489, 12⟩, []⟩,
        ⟨⟨"src/ln", .symlink, "a", 0, 511, 0⟩, []⟩] "/dest" [("/", .dir 493 0)]).2
      "/dest/src/a" = some (.file [7] 420 11) ∧
    lookupFS (unarchive [⟨⟨"src/", .dir, "", 0, 493, 10⟩, []⟩,
        ⟨⟨"src/a", .reg, "", 1, 420, 11⟩, [7]⟩, ⟨⟨"src/emptyd/", .dir, "", 0, 489, 12⟩, []⟩,
        ⟨⟨"src/ln", .symlink, "a", 0, 511, 0⟩, []⟩] "/dest" [("/", .dir 493 0)]).2
      "/dest/src/emptyd" = some (.dir 489 12) ∧
    lookupFS (unarchive [⟨⟨"src/", .dir, "", 0, 493, 10⟩, []⟩,
        ⟨⟨"src/a", .reg, "", 1, 420, 11⟩, [7]⟩, ⟨⟨"src/emptyd/", .dir, "", 0, 489, 12⟩, []⟩,
        ⟨⟨"src/ln", .symlink, "a", 0, 511, 0⟩, []⟩] "/dest" [("/", .dir 493 0)]).2
      "/dest/src/ln" = some (.symlink "a") ∧
    ∃ m t, lookupFS (unarchive [⟨⟨"src/", .dir, "", 0, 493, 10⟩, []⟩,
        ⟨⟨"src/a", .reg, "", 1, 420, 11⟩, [7]⟩, ⟨⟨"src/emptyd/", .dir, "", 0, 489, 12⟩, []⟩,
        ⟨⟨"src/ln", .symlink, "a", 0, 511, 0⟩, []⟩] "/dest" [("/", .dir 493 0)]).2
      "/dest/src" = some (.dir m t) := by
  refine ⟨?_, rfl, rfl, rfl, rfl, rfl, 493, 10, rfl⟩
  intro env content mode mt
  have hpi : processItem ⟨⟨"x", .reg, "", content.length, mode, mt⟩, content⟩ "/dest/x"
      "/dest" ⟨[("/dest", .dir 493 0), ("/", .dir 493 0)], []⟩ =
      (none, ⟨[("/dest/x", FNode.file (content.take content.length) mode mt),
        ("/dest", .dir 493 0), ("/", .dir 493 0)], []⟩) := rfl
  have hgt : getTargetPath "x" "/dest" = .ok "/dest/x" := rfl
  have hre : runEntries "/dest" [⟨⟨"x", .reg, "", content.length, mode, mt⟩, content⟩]
      ⟨[("/dest", .dir 493 0), ("/", .dir 493 0)], []⟩ =
      (none, ⟨[("/dest/x", FNode.file (content.take content.length) mode mt),
        ("/dest", .dir 493 0), ("/", .dir 493 0)], []⟩) := by
    rw [runEntries_cons_ok "/dest" "/dest/x"
      ⟨⟨"x", .reg, "", content.length, mode, mt⟩, content⟩ []
      ⟨[("/dest", .dir 493 0), ("/", .dir 493 0)], []⟩ hgt, hpi]
    rfl
  have hcl : clean "/dest" = "/dest" := rfl
  have hmk : mkdirAll 493 "/dest" [("/", .dir 493 0)] =
      .ok [("/dest", .dir 493 0), ("/", .dir 493 0)] := rfl
  have hu : unarchive [⟨⟨"x", .reg, "", content.length, mode, mt⟩, content⟩] "/dest"
      [("/", .dir 493 0)] =
      ((runEntries "/dest" [⟨⟨"x", .reg, "", content.length, mode, mt⟩, content⟩]
          ⟨[("/dest", .dir 493 0), ("/", .dir 493 0)], []⟩).1,
       (runEntries "/dest" [⟨⟨"x", .reg, "", content.length, mode, mt⟩, content⟩]
          ⟨[("/dest", .dir 493 0), ("/", .dir 493 0)], []⟩).2.fs) := by
    unfold unarchive
    simp only []
    rw [hcl, hmk]
  refine ⟨?_, ?_, ?_⟩
  · have h1 : archive ⟨-1, false⟩ env [("/src/x", FTree.file content mode mt)] =
        .ok [⟨⟨"x", .reg, "", content.length, mode, mt⟩,
          (copyFileContent content content.length).1⟩] := rfl
    rw [h1, copyFileContent_all content]
  · rw [hu, hre]
  · rw [hu, hre, List.take_length]
    rfl

end Vela
